import Mathlib

/-! # CortexAgentFramework core, shallowly embedded

Verification development for the core of the CortexAgentFramework
repository: the event bus (`src/core/EventBus.js`), the episodic memory
store (`src/memory/MemorySystem.js`) and the cycle orchestration in the
`Agent` class.  JavaScript `Map`s become insertion-ordered association
lists, fallible collaborators become `Except`-valued functions, and the
clock / random id generator become explicit parameters. -/

namespace Cortex

/-! ## JavaScript `Map` as an insertion-ordered association list

A JS `Map` iterates entries in key-insertion order; `set` on an existing
key updates the value in place, `set` on a fresh key appends at the end,
and `delete` removes the entry. -/

/-- JS `map.get(k)`: the first (in a real `Map`, only) entry under the
key; `undefined` becomes `none`. -/
def mapGet {K V : Type} [BEq K] (m : List (K × V)) (k : K) : Option V :=
  match m with
  | [] => none
  | kv :: rest => if kv.1 == k then some kv.2 else mapGet rest k

/-- JS `map.set(k, v)`: update in place when the key is present, append a
fresh entry otherwise. -/
def mapSet {K V : Type} [BEq K] (m : List (K × V)) (k : K) (v : V) : List (K × V) :=
  if (mapGet m k).isSome then
    m.map (fun kv => if kv.1 == k then (k, v) else kv)
  else
    m ++ [(k, v)]

/-- JS `map.delete(k)`. -/
def mapDelete {K V : Type} [BEq K] (m : List (K × V)) (k : K) : List (K × V) :=
  m.filter (fun kv => !(kv.1 == k))

/-! ## JS `Array.prototype.sort` with comparator `(a, b) => key(b) - key(a)`

`Array.prototype.sort` is stable (ECMAScript 2019), so this comparator
yields the list ordered by strictly descending key with ties kept in
their original relative order.  We embed it as a stable insertion sort:
an element is inserted after every strictly greater key and before every
equal or smaller key. -/

/-- Insert `x` into `l`, skipping elements with a strictly greater key. -/
def insertDescBy {α : Type} (key : α → Int) (x : α) : List α → List α
  | [] => [x]
  | y :: ys => if key x < key y then y :: insertDescBy key x ys else x :: y :: ys

/-- Stable sort by descending key (the JS `sort((a, b) => key b - key a)`). -/
def sortDescBy {α : Type} (key : α → Int) : List α → List α
  | [] => []
  | x :: xs => insertDescBy key x (sortDescBy key xs)

/-! ## `_extractKeywordsFromText` (MemorySystem.js lines 232-262) -/

/-- A regexp word character (`\w` = `[A-Za-z0-9_]`). -/
def jsWordChar (c : Char) : Bool := c.isAlpha || c.isDigit || c == '_'

/-- Worker for `text.split(/\W+/)`.  `inSep` records whether the previous
character belonged to a separator run (so the run is collapsed); `cur`
holds the current word's characters in reverse. -/
def jsSplitAux : List Char → Bool → List Char → List String
  | [], inSep, cur => if inSep then [""] else [String.mk cur.reverse]
  | c :: cs, inSep, cur =>
    if jsWordChar c then
      jsSplitAux cs false (if inSep then [c] else c :: cur)
    else
      if inSep then jsSplitAux cs true []
      else String.mk cur.reverse :: jsSplitAux cs true []

/-- JS `text.split(/\W+/)`: split on maximal runs of non-word characters,
keeping the empty pieces produced at the two ends (`"" ∈` result when the
text starts or ends with a separator; `[""]` for the empty text). -/
def jsSplitNonWord (s : String) : List String := jsSplitAux s.toList false []

/-- The fixed stopword set of `_extractKeywordsFromText`, verbatim. -/
def stopwords : List String :=
  ["a", "an", "the", "and", "or", "but", "is", "are", "was", "were", "be", "have", "has",
   "had", "do", "does", "did", "to", "from", "in", "out", "on", "off", "over", "under",
   "again", "further", "then", "once", "here", "there", "when", "where", "why", "how",
   "all", "any", "both", "each", "few", "more", "most", "other", "some", "such", "no",
   "nor", "not", "only", "own", "same", "so", "than", "too", "very", "can", "will", "just"]

/-- JS `text.toLowerCase()`, character by character (ASCII; the core
`String.toLower` is definitionally opaque to the kernel, so we map over
the character list instead). -/
def jsToLower (s : String) : String := String.mk (s.toList.map Char.toLower)

/-- `const keywords = words.filter(word => word.length > 4 && !stopwords.has(word))`
applied to `text.toLowerCase().split(/\W+/)`. -/
def keywordsOf (text : String) : List String :=
  (jsSplitNonWord (jsToLower text)).filter
    (fun w => decide (4 < w.length) && !stopwords.contains w)

/-- One step of `keywordFrequency.set(word, (keywordFrequency.get(word) || 0) + 1)`. -/
def bumpCount (m : List (String × Nat)) (w : String) : List (String × Nat) :=
  mapSet m w ((mapGet m w).getD 0 + 1)

/-- The `keywordFrequency` map, in first-occurrence order. -/
def keywordFrequency (ws : List String) : List (String × Nat) := ws.foldl bumpCount []

/-- `_extractKeywordsFromText`: frequency-rank the qualifying words
(stable sort by descending count), take the top 5.  The JS function
pushes its result onto the caller's `topics` array; we return the pushed
list instead. -/
def extractKeywordsFromText (text : String) : List String :=
  ((sortDescBy (fun kv => (kv.2 : Int)) (keywordFrequency (keywordsOf text))).take 5).map (·.1)

/-! ## `_extractTopics` (MemorySystem.js lines 212-230) -/

/-- One perception item `{ type, value }` as `_extractTopics` consumes it. -/
structure Perception where
  ptype : String
  value : Option String
deriving DecidableEq, Repr

/-- The `perceivedData` payload as `_extractTopics` discriminates it:
either a plain string or an object that may carry a `perceptions` array. -/
inductive PerceivedData where
  | str (s : String)
  | obj (perceptions : Option (List Perception))
deriving DecidableEq, Repr

/-- JS truthiness of the `perceivedData` value (the empty string is falsy). -/
def pdTruthy : PerceivedData → Bool
  | .str s => !(s == "")
  | .obj _ => true

/-- The texts `_extractTopics` extracts keywords from, in order: the string
itself, or the truthy `value`s of the `type === 'text'` perceptions. -/
def textsOf : PerceivedData → List String
  | .str s => [s]
  | .obj none => []
  | .obj (some ps) =>
    (ps.filter (fun p => p.ptype == "text")).foldl
      (fun acc p =>
        match p.value with
        | some v => if v == "" then acc else acc ++ [v]
        | none => acc) []

/-- `[...new Set(topics)]`: deduplicate keeping first occurrences. -/
def dedupFirst (l : List String) : List String :=
  l.foldl (fun acc x => if acc.contains x then acc else acc ++ [x]) []

/-- `_extractTopics`: concatenate the keywords of every text, deduplicate. -/
def extractTopics (pd : PerceivedData) : List String :=
  dedupFirst ((textsOf pd).foldl (fun acc t => acc ++ extractKeywordsFromText t) [])

/-! ## Episodes and the episodic store (MemorySystem.js) -/

/-- `CognitiveResult { analysis, plan }` (§6 of the spec); opaque payload. -/
structure CognitiveResult where
  analysis : String
  plan : String
deriving DecidableEq, Repr

/-- `ActionResult { success, output }` (§6 of the spec); opaque payload. -/
structure ActionResult where
  success : Bool
  output : String
deriving DecidableEq, Repr

/-- A stored episode.  `storeEpisode` (lines 70-76) draws a fresh
`episode-${Date.now()}-${rand}` id and a `Date.now()` timestamp when the
fields are absent; the embedding takes episodes with those two fields
already assigned, the caller supplying the drawn values.  `topics` is
`none` when the JS field is absent (note `some []`, a supplied empty
array, is truthy in JS and suppresses derivation). -/
structure Episode where
  id : String
  timestamp : Int
  topics : Option (List String)
  perceivedData : Option PerceivedData
  cognitiveResult : Option CognitiveResult
  actionResult : Option ActionResult
deriving DecidableEq, Repr

/-- The topic-derivation side effect of `_updateEpisodicIndexes` (lines
159-176): when no `topics` field was supplied and `perceivedData` is
truthy, a non-empty extraction is written back onto the episode object
(`episode.topics = extractedTopics`), so the stored episode carries it. -/
def finalizeTopics (e : Episode) : Episode :=
  match e.topics with
  | some _ => e
  | none =>
    match e.perceivedData with
    | none => e
    | some pd =>
      if pdTruthy pd then
        let ex := extractTopics pd
        if ex.isEmpty then e else { e with topics := some ex }
      else e

/-- `new Date(ts).setHours(0, 0, 0, 0)`: truncate a millisecond timestamp
to the start of its calendar day.  The source truncates in the host's
local timezone; we model the UTC truncation (the same map shifted by the
host's fixed offset). -/
def dayKey (ts : Int) : Int := ts - ts % 86400000

/-- The `MemorySystem` state restricted to episodic memory: the ordered
log, the two secondary indexes (JS `Map`s), and the capacity bound. -/
structure MemoryState where
  episodicMemory : List Episode
  episodicByDate : List (Int × List Episode)
  episodicByTopic : List (String × List Episode)
  maxEpisodicMemory : Int
deriving DecidableEq, Repr

/-- The state after `_initializeIndexes` with capacity `maxE`. -/
def initMemory (maxE : Int) : MemoryState :=
  { episodicMemory := [], episodicByDate := [], episodicByTopic := [], maxEpisodicMemory := maxE }

/-- `this.maxEpisodicMemory = config.limits.episodicMemory || this.maxEpisodicMemory`
(line 22): a missing or falsy configured limit (in particular `0`) keeps
the default of 100. -/
def configuredMax (limit : Option Int) : Int :=
  match limit with
  | none => 100
  | some v => if v == 0 then 100 else v

/-- The bucket a JS index holds under `k` (`undefined` becomes `[]`). -/
def bucketOf {K : Type} [BEq K] (idx : List (K × List Episode)) (k : K) : List Episode :=
  (mapGet idx k).getD []

/-- `_updateEpisodicIndexes` (lines 137-177) applied to the finalized
episode: push it onto its day bucket, then onto the bucket of each of its
topics (the supplied-topics branch and the extracted-topics branch of the
source push identically, so they are collapsed over `finalizeTopics`). -/
def updateEpisodicIndexes (ep : Episode) (st : MemoryState) : MemoryState :=
  let dk := dayKey ep.timestamp
  { st with
    episodicByDate := mapSet st.episodicByDate dk (bucketOf st.episodicByDate dk ++ [ep]),
    episodicByTopic :=
      (ep.topics.getD []).foldl
        (fun idx t => mapSet idx t (bucketOf idx t ++ [ep])) st.episodicByTopic }

/-- `_removeFromEpisodicIndexes` (lines 179-210): filter the evicted
episode's id out of its day bucket and out of each of its topic buckets,
deleting any bucket that becomes empty. -/
def removeFromEpisodicIndexes (ep : Episode) (st : MemoryState) : MemoryState :=
  let dk := dayKey ep.timestamp
  let dIdx :=
    match mapGet st.episodicByDate dk with
    | none => st.episodicByDate
    | some b =>
      let b' := b.filter (fun e => !(e.id == ep.id))
      if b'.isEmpty then mapDelete st.episodicByDate dk else mapSet st.episodicByDate dk b'
  let tIdx :=
    (ep.topics.getD []).foldl
      (fun idx t =>
        match mapGet idx t with
        | none => idx
        | some b =>
          let b' := b.filter (fun e => !(e.id == ep.id))
          if b'.isEmpty then mapDelete idx t else mapSet idx t b')
      st.episodicByTopic
  { st with episodicByDate := dIdx, episodicByTopic := tIdx }

/-- `storeEpisode` (lines 69-92): finalize topics, append to the log,
update both indexes, then if the log length exceeds the capacity bound
`shift()` the oldest episode out and remove it from both indexes. -/
def storeEpisode (st : MemoryState) (e : Episode) : MemoryState :=
  let ep := finalizeTopics e
  let st1 := { st with episodicMemory := st.episodicMemory ++ [ep] }
  let st2 := updateEpisodicIndexes ep st1
  if (st2.episodicMemory.length : Int) > st2.maxEpisodicMemory then
    match st2.episodicMemory with
    | [] => st2
    | removed :: rest => removeFromEpisodicIndexes removed { st2 with episodicMemory := rest }
  else st2

/-- `getEpisode` (lines 94-102): first episode with the given id, else absent. -/
def getEpisode (st : MemoryState) (episodeId : String) : Option Episode :=
  st.episodicMemory.find? (fun e => e.id == episodeId)

/-- `getRecentEpisodes` (lines 104-112): copy, stable-sort by descending
timestamp, take the first `count`. -/
def getRecentEpisodes (st : MemoryState) (count : Nat) : List Episode :=
  (sortDescBy (fun e => e.timestamp) st.episodicMemory).take count

/-- `getEpisodesByDate` (lines 114-130): collect the buckets whose DAY KEY
lies in `[startTs, endTs]` (the comparison is against the index key, not
the episodes' timestamps), then sort by descending timestamp. -/
def getEpisodesByDate (st : MemoryState) (startTs endTs : Int) : List Episode :=
  sortDescBy (fun e => e.timestamp)
    ((st.episodicByDate.filter
        (fun kv => decide (startTs ≤ kv.1) && decide (kv.1 ≤ endTs))).foldl
      (fun acc kv => acc ++ kv.2) [])

/-- `getEpisodesByTopic` (lines 132-135). -/
def getEpisodesByTopic (st : MemoryState) (topic : String) : List Episode :=
  (mapGet st.episodicByTopic topic).getD []

/-- A minimal concrete episode, used by the concrete witnesses. -/
def wEp (i : String) (ts : Int) : Episode :=
  { id := i, timestamp := ts, topics := none, perceivedData := none,
    cognitiveResult := none, actionResult := none }

/-- Wrap a bucket the way the indexes store it: an empty bucket is not
present (`delete`d), a non-empty one is present. -/
def optList {α : Type} (l : List α) : Option (List α) :=
  if l.isEmpty then none else some l

/-- The day bucket the index MUST hold under key `k` for log `mem`: the
episodes of the log whose day start is `k`, in log order. -/
def dateBucketSpec (mem : List Episode) (k : Int) : List Episode :=
  mem.filter (fun ep => dayKey ep.timestamp == k)

/-- The topic bucket the index MUST hold under topic `t` for log `mem`:
each episode of the log repeated once per occurrence of `t` in its topics
(a supplied duplicate topic is pushed twice by the source). -/
def topicBucketSpec (mem : List Episode) (t : String) : List Episode :=
  match mem with
  | [] => []
  | ep :: rest => List.replicate ((ep.topics.getD []).count t) ep ++ topicBucketSpec rest t

/-- The conclusion of claim C3 for capacity `cap` and insertion sequence
`l`: final length is the capacity, the log is the FIFO suffix, the
evicted episodes are unreachable everywhere, and after every prefix of
the insertion sequence the index-reachability invariant holds with no
empty buckets. -/
def CapacityFifoSpec (cap : Nat) (l : List Episode) : Prop :=
  ((l.foldl storeEpisode (initMemory cap)).episodicMemory.length = cap) ∧
  ((l.foldl storeEpisode (initMemory cap)).episodicMemory
    = (l.map finalizeTopics).drop (l.length - cap)) ∧
  (∀ e ∈ l.take (l.length - cap),
    getEpisode (l.foldl storeEpisode (initMemory cap)) e.id = none ∧
    (∀ kb ∈ (l.foldl storeEpisode (initMemory cap)).episodicByDate,
      ∀ x ∈ kb.2, x.id ≠ e.id) ∧
    (∀ tb ∈ (l.foldl storeEpisode (initMemory cap)).episodicByTopic,
      ∀ x ∈ tb.2, x.id ≠ e.id)) ∧
  (∀ n : Nat, n ≤ l.length →
    (∀ ep : Episode,
      ((∃ kb ∈ ((l.take n).foldl storeEpisode (initMemory cap)).episodicByDate, ep ∈ kb.2) ∨
       (∃ tb ∈ ((l.take n).foldl storeEpisode (initMemory cap)).episodicByTopic, ep ∈ tb.2))
        ↔ ep ∈ ((l.take n).foldl storeEpisode (initMemory cap)).episodicMemory) ∧
    (∀ kb ∈ ((l.take n).foldl storeEpisode (initMemory cap)).episodicByDate, kb.2 ≠ []) ∧
    (∀ tb ∈ ((l.take n).foldl storeEpisode (initMemory cap)).episodicByTopic, tb.2 ≠ []))

/-- The effect of one topic-bucket cleanup step of
`_removeFromEpisodicIndexes` on the value stored under a key: filter out
the evicted id, delete the bucket when it empties. -/
def cleanVal (rid : String) (o : Option (List Episode)) : Option (List Episode) :=
  match o with
  | none => none
  | some b =>
    let b' := b.filter (fun e => !(e.id == rid))
    if b'.isEmpty then none else some b'

/-- The store's integrity invariant: episode ids are unique, index keys
are unique, and both indexes hold exactly the buckets determined by the
ordered log — no dangling or missing references, no empty buckets. -/
structure StoreInv (st : MemoryState) : Prop where
  idsNodup : (st.episodicMemory.map Episode.id).Nodup
  dateKeys : (st.episodicByDate.map Prod.fst).Nodup
  topicKeys : (st.episodicByTopic.map Prod.fst).Nodup
  dateEq : ∀ k : Int, mapGet st.episodicByDate k = optList (dateBucketSpec st.episodicMemory k)
  topicEq : ∀ t : String, mapGet st.episodicByTopic t = optList (topicBucketSpec st.episodicMemory t)

/-- The amended topic-derivation contract of `storeEpisode` for an episode
without a supplied `topics` field and with truthy perceived data whose
extraction is non-empty: the stored episode carries exactly the extracted
topics; the extraction is duplicate-free and drawn from the split words
of the lowercased texts, excluding stopwords and words of length at most
4, frequency-ranked with at most 5 keywords PER TEXT (exactly 5 at most
for a plain-string perceived text); and the store's topic index holds the
episode under a topic exactly when it is one of the extracted topics (or
the episode was already in that bucket). -/
def TopicDerivationSpec (st : MemoryState) (e : Episode) (pd : PerceivedData) : Prop :=
  (finalizeTopics e).topics = some (extractTopics pd) ∧
  (extractTopics pd).Nodup ∧
  (∀ t ∈ extractTopics pd, ∃ text ∈ textsOf pd, t ∈ extractKeywordsFromText text) ∧
  (∀ text : String, (extractKeywordsFromText text).length ≤ 5) ∧
  (∀ s : String, extractTopics (PerceivedData.str s) = extractKeywordsFromText s) ∧
  (∀ text w : String, w ∈ extractKeywordsFromText text →
    w ∈ jsSplitNonWord (jsToLower text) ∧ 4 < w.length ∧ ¬ stopwords.contains w) ∧
  (∀ text w u : String, w ∈ extractKeywordsFromText text → u ∈ keywordsOf text →
    u ∉ extractKeywordsFromText text →
    (keywordsOf text).count u ≤ (keywordsOf text).count w) ∧
  (∀ t : String,
    finalizeTopics e ∈ bucketOf (storeEpisode st e).episodicByTopic t ↔
      (t ∈ extractTopics pd ∨ finalizeTopics e ∈ bucketOf st.episodicByTopic t))

end Cortex

namespace Cortex.EventBus

/-! ## `EventBus` (src/core/EventBus.js)

Listeners are JS function references; `off` compares them with `!==`, so
we model a callback as an identity token (`Nat`) and keep the behavior of
each token in a separate environment.  `this.listeners` is an object
mapping event names to arrays; a missing entry behaves like `[]`, so we
model it as a total function into lists.  A listener may itself call
`on`/`off` (mutating the table) and may touch arbitrary external state
`σ`, so a behavior transforms the whole bus state and may throw.

`emit` iterates the listener array with `Array.prototype.forEach`, whose
range of visited elements is fixed before the first callback runs:
elements appended by `on` during the emission are not visited, and `off`
replaces `this.listeners[event]` with a fresh filtered array so the
iteration of the old array is unaffected.  Hence the emission runs over a
snapshot of the registration list taken when `emit` starts, each call
wrapped in the source's `try`/`catch` (a thrown error is logged and the
iteration continues); we also return the trace of invocations with the
outcome of each. -/

/-- A JS function reference's identity. -/
abbrev CB := Nat

/-- The bus's mutable state plus whatever external state listeners touch. -/
structure BusState (σ : Type) where
  listeners : String → List CB
  ext : σ

/-- What a callback does when invoked with the published payload:
transform the state or throw. -/
def Behavior (σ δ ε : Type) := δ → BusState σ → Except ε (BusState σ)

/-- `on(event, callback)` (lines 6-12; `on` is reserved in Lean, so the
spec's name `subscribe` is used): append at the end of the event's
array.  The returned unsubscribe handle is `() => this.off(event, callback)`;
invoking the handle is modeled by applying `off` to the same pair. -/
def subscribe {σ : Type} (st : BusState σ) (ev : String) (cb : CB) : BusState σ :=
  { st with listeners := fun e => if e == ev then st.listeners e ++ [cb] else st.listeners e }

/-- `off(event, callback)` (lines 14-17): replace the event's array by the
one with every occurrence of the callback reference filtered out (`cb !== callback`). -/
def off {σ : Type} (st : BusState σ) (ev : String) (cb : CB) : BusState σ :=
  { st with
    listeners := fun e =>
      if e == ev then (st.listeners e).filter (fun c => !(c == cb)) else st.listeners e }

/-- The `forEach` loop of `emit` over a snapshot of the listener array,
with the per-callback `try`/`catch`: a throwing callback leaves the state
as it was and the iteration continues.  Also returns the invocation
trace (callback, outcome). -/
def emitList {σ δ ε : Type} (env : CB → Behavior σ δ ε) (d : δ) :
    List CB → BusState σ → BusState σ × List (CB × Option ε)
  | [], st => (st, [])
  | cb :: rest, st =>
    match env cb d st with
    | .ok st' =>
      let r := emitList env d rest st'
      (r.1, (cb, none) :: r.2)
    | .error e =>
      let r := emitList env d rest st
      (r.1, (cb, some e) :: r.2)

/-- `emit(event, data)` (lines 19-28). -/
def emit {σ δ ε : Type} (env : CB → Behavior σ δ ε) (ev : String) (d : δ)
    (st : BusState σ) : BusState σ × List (CB × Option ε) :=
  emitList env d (st.listeners ev) st

/-- The empty bus (`this.listeners = {}`) over external state `x`. -/
def emptyBus {σ : Type} (x : σ) : BusState σ := { listeners := fun _ => [], ext := x }

/-- A concrete listener environment over a log of invocations: callback 1
always throws, every other callback appends itself to the log. -/
def demoEnv : CB → Behavior (List Nat) Nat String :=
  fun cb _d st => if cb == 1 then .error "boom" else .ok { st with ext := st.ext ++ [cb] }

/-- A concrete bus with callbacks 0, 1, 2 registered on `"e"` in order. -/
def demoBus : BusState (List Nat) :=
  subscribe (subscribe (subscribe (emptyBus []) "e" 0) "e" 1) "e" 2

end Cortex.EventBus

namespace Cortex.Agent

/-! ## The `Agent` cycle (second class of src/core/Config.js)

`Agent.process(input)` awaits the Perception collaborator, publishes
`perception:complete`, and returns a promise that is settled only by the
standing `cycle:complete` listener it registers.  The three standing
listeners installed by `_setupEventListeners` chain the stages:

* `perception:complete`: write the payload to the agent-wide working
  memory under the fixed key `"perceivedData"`, await Cognition on the
  payload, publish `cognition:complete`;
* `cognition:complete`: write the payload under the fixed key
  `"cognitiveResult"`, await Action on the payload's plan, publish
  `action:complete`;
* `action:complete`: assemble an Episode from the two WORKING-MEMORY
  slots plus the payload, store it, publish `cycle:complete`.

Each `await` is a suspension point; everything between two suspension
points runs atomically.  The working memory is one `Map` per agent with
those two fixed keys, so we model it as a record with the two slots (the
per-entry write timestamps the `Map` also stores are never read by the
cycle and are dropped). -/

open Cortex

/-- The agent-wide working memory restricted to the two keys the cycle
listeners use. -/
structure WorkingMemory where
  perceivedData : Option PerceivedData
  cognitiveResult : Option CognitiveResult
deriving DecidableEq, Repr

/-- How the caller's pending promise from `Agent.process` ends up:
resolved, rejected, or never settled at all. -/
inductive Settlement (ε : Type) where
  | resolved (ep : Episode)
  | rejected (e : ε)
  | pending
deriving DecidableEq, Repr

/-- One `Agent.process(input)` invocation with no other cycle in flight,
over `Except`-valued collaborators.  `freshId`/`now` are the id and clock
values drawn during the cycle.  A Perception failure is caught by the
`try`/`catch` of `process` and rethrown, rejecting the caller; a
Cognition or Action failure rejects the stage listener's own (unawaited,
unhandled) promise, so no further event fires and the caller's promise
is never settled. -/
def processCycle {ι ε : Type}
    (perceive : ι → Except ε PerceivedData)
    (cognite : PerceivedData → Except ε CognitiveResult)
    (act : CognitiveResult → Except ε ActionResult)
    (freshId : String) (now : Int) (input : ι)
    (wm : WorkingMemory) (mem : MemoryState) :
    Settlement ε × WorkingMemory × MemoryState :=
  match perceive input with
  | .error e => (.rejected e, wm, mem)
  | .ok pd =>
    let wm1 := { wm with perceivedData := some pd }
    match cognite pd with
    | .error _ => (.pending, wm1, mem)
    | .ok cr =>
      let wm2 := { wm1 with cognitiveResult := some cr }
      match act cr with
      | .error _ => (.pending, wm2, mem)
      | .ok ar =>
        let ep : Episode :=
          { id := freshId, timestamp := now, topics := none,
            perceivedData := wm2.perceivedData, cognitiveResult := wm2.cognitiveResult,
            actionResult := some ar }
        (.resolved (finalizeTopics ep), wm2, storeEpisode mem ep)

/-- Where a cycle stands between suspension points. -/
inductive CyclePC where
  | atStart
  | afterPerception
  | afterCognition
  | finished
deriving DecidableEq, Repr

/-- Two concurrently invoked cycles on one agent: the shared working
memory and store, each cycle's program counter, and the episode each
cycle's remember stage stored (for attribution). -/
structure TwoCycles where
  wm : WorkingMemory
  mem : MemoryState
  pc0 : CyclePC
  pc1 : CyclePC
  stored0 : Option Episode
  stored1 : Option Episode
deriving DecidableEq, Repr

/-- One atomic segment of a cycle on input `input` (collaborators here
are pure: the all-stages-succeed case).  Segment 1: Perception's result
is written to the SHARED working-memory slot.  Segment 2: Cognition ran
on the per-cycle payload; its result is written to the shared slot.
Segment 3: Action ran on the per-cycle payload; the episode is assembled
from the SHARED slots plus the per-cycle action result, and stored. -/
def stepCycle {ι : Type}
    (perceive : ι → PerceivedData)
    (cognite : PerceivedData → CognitiveResult)
    (act : CognitiveResult → ActionResult)
    (input : ι) (freshId : String) (now : Int)
    (pc : CyclePC) (wm : WorkingMemory) (mem : MemoryState) :
    CyclePC × WorkingMemory × MemoryState × Option Episode :=
  match pc with
  | .atStart =>
    (.afterPerception, { wm with perceivedData := some (perceive input) }, mem, none)
  | .afterPerception =>
    (.afterCognition, { wm with cognitiveResult := some (cognite (perceive input)) }, mem, none)
  | .afterCognition =>
    let ep : Episode :=
      { id := freshId, timestamp := now, topics := none,
        perceivedData := wm.perceivedData, cognitiveResult := wm.cognitiveResult,
        actionResult := some (act (cognite (perceive input))) }
    (.finished, wm, storeEpisode mem ep, some (finalizeTopics ep))
  | .finished => (.finished, wm, mem, none)

/-- Run an interleaving of the two cycles: each schedule entry names the
cycle whose next segment the event loop dispatches (`false` = cycle 0 on
`input0`, `true` = cycle 1 on `input1`). -/
def runTwoCycles {ι : Type}
    (perceive : ι → PerceivedData)
    (cognite : PerceivedData → CognitiveResult)
    (act : CognitiveResult → ActionResult)
    (input0 input1 : ι) (id0 id1 : String) (now0 now1 : Int) :
    List Bool → TwoCycles → TwoCycles
  | [], st => st
  | b :: sched, st =>
    let st' :=
      if b then
        let r := stepCycle perceive cognite act input1 id1 now1 st.pc1 st.wm st.mem
        { st with pc1 := r.1, wm := r.2.1, mem := r.2.2.1,
                  stored1 := (r.2.2.2).or st.stored1 }
      else
        let r := stepCycle perceive cognite act input0 id0 now0 st.pc0 st.wm st.mem
        { st with pc0 := r.1, wm := r.2.1, mem := r.2.2.1,
                  stored0 := (r.2.2.2).or st.stored0 }
    runTwoCycles perceive cognite act input0 input1 id0 id1 now0 now1 sched st'

/-- Both cycles poised to start on an initialized agent. -/
def initTwoCycles : TwoCycles :=
  { wm := { perceivedData := none, cognitiveResult := none },
    mem := initMemory 100,
    pc0 := .atStart, pc1 := .atStart, stored0 := none, stored1 := none }

/-- A concrete interleaving of two cycles on inputs `"i1"` and `"i2"`:
cycle 0 perceives, cycle 1 perceives (overwriting the shared slot while
cycle 0 awaits Cognition), then cycle 0 finishes its remaining stages. -/
def contaminationDemo : TwoCycles :=
  runTwoCycles (fun i => PerceivedData.str i)
    (fun _ => { analysis := "a", plan := "p" })
    (fun _ => { success := true, output := "done" })
    "i1" "i2" "ep0" "ep1" 1000 2000 [false, true, false, false] initTwoCycles

end Cortex.Agent

/-! # Theorems -/

namespace Cortex.EventBus

/-- Every callback of the snapshot contributes exactly one trace entry,
in order, whatever the behaviors do. -/
theorem emitList_trace {σ δ ε : Type} (env : CB → Behavior σ δ ε) (d : δ) :
    ∀ (l : List CB) (st : BusState σ), ((emitList env d l st).2).map Prod.fst = l := by
  intro l
  induction l with
  | nil => intro st; rfl
  | cons cb rest ih =>
    intro st
    unfold emitList
    cases env cb d st with
    | ok st' => simpa using ih st'
    | error e => simpa using ih st

/-- Cons step of the emission loop when the callback returns normally. -/
theorem emitList_cons_ok {σ δ ε : Type} {env : CB → Behavior σ δ ε} {d : δ}
    {cb : CB} {st st' : BusState σ} (rest : List CB) (h : env cb d st = .ok st') :
    emitList env d (cb :: rest) st =
      ((emitList env d rest st').1, (cb, none) :: (emitList env d rest st').2) := by
  simp only [emitList]
  rw [h]

/-- Cons step of the emission loop when the callback throws. -/
theorem emitList_cons_error {σ δ ε : Type} {env : CB → Behavior σ δ ε} {d : δ}
    {cb : CB} {st : BusState σ} {e : ε} (rest : List CB) (h : env cb d st = .error e) :
    emitList env d (cb :: rest) st =
      ((emitList env d rest st).1, (cb, some e) :: (emitList env d rest st).2) := by
  simp only [emitList]
  rw [h]

/-- The emission loop splits over list concatenation. -/
theorem emitList_append {σ δ ε : Type} (env : CB → Behavior σ δ ε) (d : δ)
    (l₁ l₂ : List CB) (st : BusState σ) :
    emitList env d (l₁ ++ l₂) st =
      ((emitList env d l₂ (emitList env d l₁ st).1).1,
        (emitList env d l₁ st).2 ++ (emitList env d l₂ (emitList env d l₁ st).1).2) := by
  induction l₁ generalizing st with
  | nil => simp [emitList]
  | cons cb rest ih =>
    cases h : env cb d st with
    | ok st' =>
      rw [List.cons_append, emitList_cons_ok (rest ++ l₂) h, emitList_cons_ok rest h, ih st']
      simp
    | error e =>
      rw [List.cons_append, emitList_cons_error (rest ++ l₂) h, emitList_cons_error rest h, ih st]
      simp

/-- C6: an emission invokes every currently-registered listener for the
event in registration order; a listener that throws at its turn has its
error caught and recorded (the source logs it), the state it would have
produced is discarded, every listener after it still runs, and the
publishing caller always receives a result (`emit` is total). -/
theorem emit_listener_fault_isolated {σ δ ε : Type}
    (env : CB → Behavior σ δ ε) (ev : String) (d : δ) (st : BusState σ)
    (pre post : List CB) (bad : CB) (er : ε)
    (hbad : env bad d (emitList env d pre st).1 = .error er)
    (hl : st.listeners ev = pre ++ bad :: post) :
    (emit env ev d st).2.map Prod.fst = pre ++ bad :: post ∧
    emit env ev d st =
      ((emitList env d post (emitList env d pre st).1).1,
        (emitList env d pre st).2 ++
          (bad, some er) :: (emitList env d post (emitList env d pre st).1).2) := by
  constructor
  · rw [emit, hl, emitList_trace]
  · rw [emit, hl, emitList_append, emitList_cons_error post hbad]

/-- Witness for C6 at the concrete bus `demoBus` whose middle listener throws. -/
theorem emit_listener_fault_isolated_witness :
    demoEnv 1 7 (emitList demoEnv 7 [0] demoBus).1 = .error "boom" ∧
    demoBus.listeners "e" = [0] ++ 1 :: [2] ∧
    ((emit demoEnv "e" 7 demoBus).2.map Prod.fst = [0] ++ 1 :: [2] ∧
      emit demoEnv "e" 7 demoBus =
        ((emitList demoEnv 7 [2] (emitList demoEnv 7 [0] demoBus).1).1,
          (emitList demoEnv 7 [0] demoBus).2 ++
            (1, some "boom") :: (emitList demoEnv 7 [2] (emitList demoEnv 7 [0] demoBus).1).2)) :=
  ⟨rfl, by decide,
    emit_listener_fault_isolated demoEnv "e" 7 demoBus [0] [2] 1 "boom" rfl (by decide)⟩

/-- C9: the set of listeners an emission invokes is fixed when it begins:
the trace is exactly the registration list at emission start, in order,
for EVERY behavior environment — in particular for listeners that
`subscribe` or `off` other listeners mid-emission (`forEach` does not
visit appended elements, and `off` replaces the array, leaving the
iterated snapshot intact). -/
theorem emit_snapshot_semantics {σ δ ε : Type}
    (env : CB → Behavior σ δ ε) (ev : String) (d : δ) (st : BusState σ) :
    (emit env ev d st).2.map Prod.fst = st.listeners ev ∧
    (∀ cb : CB, cb ∈ (emit env ev d st).2.map Prod.fst ↔ cb ∈ st.listeners ev) := by
  refine ⟨?_, ?_⟩
  · rw [emit, emitList_trace]
  · intro cb; rw [emit, emitList_trace]

/-- C7 counterexample: register the same callback reference twice on one
event; invoking the first registration's unsubscribe handle removes BOTH
registrations (the source filters with `cb !== callback`), not exactly
the one registration the claim says it removes. -/
theorem off_removes_every_registration_counterexample :
    (off (subscribe (subscribe (emptyBus ()) "e" 0) "e" 0) "e" 0).listeners "e" = [] ∧
    (off (subscribe (subscribe (emptyBus ()) "e" 0) "e" 0) "e" 0).listeners "e" ≠ [0] := by
  constructor
  · decide
  · decide

/-- C7 amended: `subscribe` appends the listener at the end of exactly its
event's sequence and returns a handle (modeled as applying `off` to the
same pair); invoking the handle removes EVERY registration of that
callback reference for that event (not just the one registration);
invoking it again is idempotent; after removal an emission of that event
no longer invokes the callback; and emitting right after subscribing
invokes the callback (last, hence exactly once when it was not already
registered). -/
theorem subscribe_off_contract {σ : Type} (st : BusState σ) (ev : String) (cb : CB) :
    ((subscribe st ev cb).listeners ev = st.listeners ev ++ [cb]) ∧
    (∀ ev', (subscribe st ev cb).listeners ev' =
      if ev' == ev then st.listeners ev' ++ [cb] else st.listeners ev') ∧
    ((off st ev cb).listeners ev = (st.listeners ev).filter (fun c => !(c == cb))) ∧
    (off (off st ev cb) ev cb = off st ev cb) ∧
    (∀ (δ ε : Type) (env : CB → Behavior σ δ ε) (d : δ),
      cb ∉ (emit env ev d (off st ev cb)).2.map Prod.fst) ∧
    (∀ (δ ε : Type) (env : CB → Behavior σ δ ε) (d : δ),
      (emit env ev d (subscribe st ev cb)).2.map Prod.fst = st.listeners ev ++ [cb]) := by
  refine ⟨by simp [subscribe], ?_, by simp [off], ?_, ?_, ?_⟩
  · intro ev'
    by_cases h : ev' = ev <;> simp [subscribe, h]
  · show BusState.mk _ _ = BusState.mk _ _
    congr 1
    funext e
    by_cases h : e = ev <;> simp [off, h, List.filter_filter]
  · intro δ ε env d
    rw [emit, emitList_trace]
    simp [off, List.mem_filter]
  · intro δ ε env d
    rw [emit, emitList_trace]
    simp [subscribe]

end Cortex.EventBus

namespace Cortex

/-! ### Association-map lemmas -/

theorem mapGet_replace {K V : Type} [BEq K] [LawfulBEq K] (k k' : K) (v : V)
    (m : List (K × V)) :
    mapGet (m.map (fun kv => if kv.1 == k then (k, v) else kv)) k' =
      if k' == k then (if (mapGet m k).isSome then some v else none) else mapGet m k' := by
  induction m with
  | nil => by_cases h : k' = k <;> simp [mapGet, h]
  | cons p rest ih =>
    by_cases hp : p.1 = k
    · by_cases hk : k' = k
      · subst hk; simp [mapGet, hp, ih]
      · simp [mapGet, hp, hk, Ne.symm hk, ih]
    · by_cases hk : k' = k
      · subst hk; simp [mapGet, hp, ih]
      · by_cases hpk : p.1 = k'
        · simp [mapGet, hp, hpk, hk, ih]
        · simp [mapGet, hp, hpk, hk, ih]

theorem mapGet_append {K V : Type} [BEq K] (m₁ m₂ : List (K × V)) (k : K) :
    mapGet (m₁ ++ m₂) k = (mapGet m₁ k).or (mapGet m₂ k) := by
  induction m₁ with
  | nil => simp [mapGet]
  | cons p rest ih =>
    by_cases hp : p.1 == k <;> simp [mapGet, hp, ih]

theorem mapGet_mapSet {K V : Type} [BEq K] [LawfulBEq K] (m : List (K × V)) (k k' : K) (v : V) :
    mapGet (mapSet m k v) k' = if k' == k then some v else mapGet m k' := by
  unfold mapSet
  by_cases hc : (mapGet m k).isSome
  · rw [if_pos hc, mapGet_replace]
    by_cases hk : k' = k <;> simp [hk, hc]
  · rw [if_neg hc, mapGet_append]
    by_cases hk : k' = k
    · subst hk
      have h0 : mapGet m k' = none := by
        cases h : mapGet m k' with
        | none => rfl
        | some _ => rw [h] at hc; simp at hc
      simp [h0, mapGet]
    · simp [mapGet, hk, Ne.symm hk]

theorem mapGet_mapDelete {K V : Type} [BEq K] [LawfulBEq K] (m : List (K × V)) (k k' : K) :
    mapGet (mapDelete m k) k' = if k' == k then none else mapGet m k' := by
  induction m with
  | nil => by_cases h : k' = k <;> simp [mapGet, mapDelete, h]
  | cons p rest ih =>
    by_cases hp : p.1 = k
    · have hdel : mapDelete (p :: rest) k = mapDelete rest k := by
        simp [mapDelete, List.filter_cons, hp]
      rw [hdel, ih]
      by_cases hk : k' = k
      · simp [hk]
      · simp [mapGet, hk, hp, Ne.symm hk]
    · have hdel : mapDelete (p :: rest) k = p :: mapDelete rest k := by
        simp [mapDelete, List.filter_cons, hp]
      rw [hdel]
      by_cases hpk : p.1 = k'
      · have hk : ¬ k' = k := fun h => hp (h ▸ hpk)
        simp [mapGet, hpk, hk]
      · simp [mapGet, hpk, ih]

/-- Index maintenance never touches the ordered log or the capacity bound. -/
@[simp] theorem updateEpisodicIndexes_episodicMemory (ep : Episode) (st : MemoryState) :
    (updateEpisodicIndexes ep st).episodicMemory = st.episodicMemory := rfl

@[simp] theorem updateEpisodicIndexes_maxEpisodicMemory (ep : Episode) (st : MemoryState) :
    (updateEpisodicIndexes ep st).maxEpisodicMemory = st.maxEpisodicMemory := rfl

@[simp] theorem removeFromEpisodicIndexes_episodicMemory (ep : Episode) (st : MemoryState) :
    (removeFromEpisodicIndexes ep st).episodicMemory = st.episodicMemory := rfl

@[simp] theorem removeFromEpisodicIndexes_maxEpisodicMemory (ep : Episode) (st : MemoryState) :
    (removeFromEpisodicIndexes ep st).maxEpisodicMemory = st.maxEpisodicMemory := rfl

/-- `storeEpisode` leaves the capacity bound unchanged and evolves the log
by appending the finalized episode, then shifting off the head if the
bound is exceeded. -/
theorem storeEpisode_episodicMemory (st : MemoryState) (e : Episode) :
    (storeEpisode st e).maxEpisodicMemory = st.maxEpisodicMemory ∧
    (storeEpisode st e).episodicMemory =
      (if ((st.episodicMemory ++ [finalizeTopics e]).length : Int) > st.maxEpisodicMemory
       then (st.episodicMemory ++ [finalizeTopics e]).tail
       else st.episodicMemory ++ [finalizeTopics e]) := by
  constructor
  · simp only [storeEpisode]
    split
    · split <;> rfl
    · rfl
  · simp only [storeEpisode]
    split
    case isTrue h =>
      simp only [updateEpisodicIndexes_episodicMemory,
        updateEpisodicIndexes_maxEpisodicMemory] at h
      split
      case _ heq =>
        simp only [updateEpisodicIndexes_episodicMemory] at heq
        exact absurd heq (by simp)
      case _ removed rest heq =>
        simp only [updateEpisodicIndexes_episodicMemory] at heq
        rw [removeFromEpisodicIndexes_episodicMemory, if_pos h, heq]
        rfl
    case isFalse h =>
      simp only [updateEpisodicIndexes_episodicMemory,
        updateEpisodicIndexes_maxEpisodicMemory] at h
      rw [updateEpisodicIndexes_episodicMemory, if_neg h]

/-- While the log stays within the capacity bound, `storeEpisode` never
evicts: the log is the initial log plus the finalized inserts, in order. -/
theorem foldl_storeEpisode_no_eviction (l : List Episode) :
    ∀ st : MemoryState,
      ((st.episodicMemory.length + l.length : Int) ≤ st.maxEpisodicMemory) →
      (l.foldl storeEpisode st).episodicMemory = st.episodicMemory ++ l.map finalizeTopics := by
  induction l with
  | nil => intro st _; simp
  | cons e rest ih =>
    intro st hlen
    obtain ⟨hmax, hmem⟩ := storeEpisode_episodicMemory st e
    have hcond : ¬ (((st.episodicMemory ++ [finalizeTopics e]).length : Int) >
        st.maxEpisodicMemory) := by
      simp only [List.length_append, List.length_cons, List.length_nil] at hlen ⊢
      push_cast at hlen ⊢
      omega
    rw [if_neg hcond] at hmem
    have hrec := ih (storeEpisode st e) ?_
    · rw [List.foldl_cons, hrec, hmem]
      simp
    · rw [hmax, hmem]
      simp only [List.length_append, List.length_cons, List.length_nil] at hlen ⊢
      push_cast at hlen ⊢
      omega

/-- C10: a missing or falsy (`0`) configured episodic-memory limit yields
the default capacity of 100; no configured value can yield capacity 0;
consequently a store configured with limit `0` keeps all of its first 100
insertions (no eviction). -/
theorem configuredMax_falsy_defaults_to_100 :
    (∀ ov : Option Int, configuredMax ov ≠ 0) ∧
    configuredMax none = 100 ∧
    configuredMax (some 0) = 100 ∧
    (∀ l : List Episode, l.length ≤ 100 →
      (l.foldl storeEpisode (initMemory (configuredMax (some 0)))).episodicMemory
        = l.map finalizeTopics) := by
  refine ⟨?_, rfl, rfl, ?_⟩
  · intro ov
    match ov with
    | none => decide
    | some v =>
      show (if v == 0 then (100 : Int) else v) ≠ 0
      by_cases h : (v == 0) = true <;> simp_all
  · intro l hl
    have h0 : (((initMemory (configuredMax (some 0))).episodicMemory.length + l.length : Int) ≤
        (initMemory (configuredMax (some 0))).maxEpisodicMemory) := by
      show ((([] : List Episode).length + l.length : Int) ≤ (100 : Int))
      simp only [List.length_nil]
      omega
    have hfe := foldl_storeEpisode_no_eviction l (initMemory (configuredMax (some 0))) h0
    simpa using hfe

/-- Witness for C10 at a two-episode insertion sequence. -/
theorem configuredMax_falsy_defaults_to_100_witness :
    ([{ id := "a", timestamp := 1, topics := none, perceivedData := none,
        cognitiveResult := none, actionResult := none },
      { id := "b", timestamp := 2, topics := none, perceivedData := none,
        cognitiveResult := none, actionResult := none }] : List Episode).length ≤ 100 ∧
    (([{ id := "a", timestamp := 1, topics := none, perceivedData := none,
         cognitiveResult := none, actionResult := none },
       { id := "b", timestamp := 2, topics := none, perceivedData := none,
         cognitiveResult := none, actionResult := none }] : List Episode).foldl storeEpisode
        (initMemory (configuredMax (some 0)))).episodicMemory
      = ([{ id := "a", timestamp := 1, topics := none, perceivedData := none,
            cognitiveResult := none, actionResult := none },
          { id := "b", timestamp := 2, topics := none, perceivedData := none,
            cognitiveResult := none, actionResult := none }] : List Episode).map finalizeTopics :=
  ⟨by decide,
    configuredMax_falsy_defaults_to_100.2.2.2 _ (by decide)⟩

end Cortex

namespace Cortex

/-! ### Stable descending sort: permutation, sortedness, stability -/

theorem insertDescBy_perm {α : Type} (key : α → Int) (x : α) (l : List α) :
    (insertDescBy key x l).Perm (x :: l) := by
  induction l with
  | nil => exact List.Perm.refl _
  | cons y ys ih =>
    simp only [insertDescBy]
    split
    · exact (ih.cons y).trans (List.Perm.swap x y ys)
    · exact List.Perm.refl _

theorem sortDescBy_perm {α : Type} (key : α → Int) (l : List α) :
    (sortDescBy key l).Perm l := by
  induction l with
  | nil => exact List.Perm.refl _
  | cons x xs ih =>
    exact (insertDescBy_perm key x (sortDescBy key xs)).trans (ih.cons x)

theorem insertDescBy_pairwise {α : Type} (key : α → Int) (x : α) (l : List α)
    (h : l.Pairwise (fun a b => key b ≤ key a)) :
    (insertDescBy key x l).Pairwise (fun a b => key b ≤ key a) := by
  induction l with
  | nil => simp [insertDescBy]
  | cons y ys ih =>
    rw [List.pairwise_cons] at h
    obtain ⟨hy, hys⟩ := h
    simp only [insertDescBy]
    split
    case isTrue hlt =>
      rw [List.pairwise_cons]
      refine ⟨?_, ih hys⟩
      intro z hz
      have hz' : z = x ∨ z ∈ ys := by
        have := (insertDescBy_perm key x ys).mem_iff.mp hz
        simpa using this
      rcases hz' with rfl | hz'
      · omega
      · exact hy z hz'
    case isFalse hge =>
      rw [List.pairwise_cons]
      constructor
      · intro z hz
        rcases List.mem_cons.mp hz with rfl | hz'
        · omega
        · have := hy z hz'
          omega
      · exact List.pairwise_cons.mpr ⟨hy, hys⟩

theorem sortDescBy_pairwise {α : Type} (key : α → Int) (l : List α) :
    (sortDescBy key l).Pairwise (fun a b => key b ≤ key a) := by
  induction l with
  | nil => simp [sortDescBy]
  | cons x xs ih => exact insertDescBy_pairwise key x (sortDescBy key xs) ih

/-- Stability of the insertion step: the elements with any fixed key `t`
keep their relative order (`x` is inserted before every element with an
equal key, after every strictly greater one). -/
theorem insertDescBy_filter_eq {α : Type} (key : α → Int) (t : Int) (x : α) (l : List α) :
    (insertDescBy key x l).filter (fun a => key a == t) =
      (x :: l).filter (fun a => key a == t) := by
  induction l with
  | nil => rfl
  | cons y ys ih =>
    simp only [insertDescBy]
    split
    case isTrue hlt =>
      by_cases hx : key x = t <;> by_cases hy : key y = t
      · omega
      · simp only [List.filter_cons, ih]
        simp [hx, hy]
      · simp only [List.filter_cons, ih]
        simp [hx, hy]
      · simp only [List.filter_cons, ih]
        simp [hx, hy]
    case isFalse hge => rfl

/-- Stability of the stable sort: the elements with any fixed key keep
their original relative order. -/
theorem sortDescBy_filter_eq {α : Type} (key : α → Int) (t : Int) (l : List α) :
    (sortDescBy key l).filter (fun a => key a == t) = l.filter (fun a => key a == t) := by
  induction l with
  | nil => rfl
  | cons x xs ih =>
    rw [sortDescBy, insertDescBy_filter_eq, List.filter_cons, List.filter_cons, ih]

/-- C5: `getRecentEpisodes(k)` returns `min k size` episodes of the store,
ordered by descending timestamp, each with a timestamp at least that of
every episode it leaves out, and with tied timestamps kept in insertion
order (the stable sort preserves the relative order of every
equal-timestamp class, and the returned list is its prefix of length k). -/
theorem getRecentEpisodes_spec (st : MemoryState) (k : Nat) :
    (getRecentEpisodes st k).length = min k st.episodicMemory.length ∧
    (getRecentEpisodes st k).Pairwise (fun a b => b.timestamp ≤ a.timestamp) ∧
    (∀ e, e ∈ getRecentEpisodes st k → e ∈ st.episodicMemory) ∧
    (∀ t : Int,
      (sortDescBy (fun e => e.timestamp) st.episodicMemory).filter (fun e => e.timestamp == t)
        = st.episodicMemory.filter (fun e => e.timestamp == t)) ∧
    (∀ a ∈ getRecentEpisodes st k,
      ∀ b ∈ (sortDescBy (fun e => e.timestamp) st.episodicMemory).drop k,
        b.timestamp ≤ a.timestamp) ∧
    getRecentEpisodes st k = (sortDescBy (fun e => e.timestamp) st.episodicMemory).take k := by
  refine ⟨?_, ?_, ?_, ?_, ?_, rfl⟩
  · rw [getRecentEpisodes, List.length_take,
      (sortDescBy_perm (fun e => e.timestamp) st.episodicMemory).length_eq]
  · exact List.Pairwise.sublist (List.take_sublist k _)
      (sortDescBy_pairwise (fun e => e.timestamp) st.episodicMemory)
  · intro e he
    have h1 : e ∈ sortDescBy (fun e => e.timestamp) st.episodicMemory :=
      List.mem_of_mem_take he
    exact (sortDescBy_perm (fun e => e.timestamp) st.episodicMemory).mem_iff.mp h1
  · intro t
    exact sortDescBy_filter_eq (fun e => e.timestamp) t st.episodicMemory
  · intro a ha b hb
    exact (sortDescBy_pairwise (fun e => e.timestamp)
      st.episodicMemory).rel_of_mem_take_of_mem_drop ha hb

end Cortex

namespace Cortex.Agent

/-- C1: when Perception and Cognition succeed but the Action collaborator
fails, `Agent.process`'s caller is settled ZERO times — the promise stays
pending forever (no resolution, and no rejection carrying any phase) —
and no episode is appended to the store for that cycle. -/
theorem process_action_failure_never_settles {ι ε : Type}
    (perceive : ι → Except ε PerceivedData)
    (cognite : PerceivedData → Except ε CognitiveResult)
    (act : CognitiveResult → Except ε ActionResult)
    (freshId : String) (now : Int) (input : ι)
    (wm : WorkingMemory) (mem : MemoryState)
    (pd : PerceivedData) (cr : CognitiveResult) (e : ε)
    (hp : perceive input = .ok pd) (hc : cognite pd = .ok cr) (ha : act cr = .error e) :
    (processCycle perceive cognite act freshId now input wm mem).1 = Settlement.pending ∧
    (processCycle perceive cognite act freshId now input wm mem).2.2 = mem := by
  simp [processCycle, hp, hc, ha]

/-- Witness for C1 at concrete collaborators whose Action stage rejects. -/
theorem process_action_failure_never_settles_witness :
    (fun i => Except.ok (ε := String) (PerceivedData.str i)) "go" = .ok (PerceivedData.str "go") ∧
    (fun _pd => Except.ok (ε := String) (CognitiveResult.mk "an" "pl")) (PerceivedData.str "go")
      = .ok (CognitiveResult.mk "an" "pl") ∧
    (fun _cr => Except.error (α := ActionResult) "action blew up") (CognitiveResult.mk "an" "pl")
      = .error "action blew up" ∧
    ((processCycle (fun i => Except.ok (PerceivedData.str i))
        (fun _pd => Except.ok (CognitiveResult.mk "an" "pl"))
        (fun _cr => Except.error (α := ActionResult) "action blew up")
        "ep-w" 5 "go"
        { perceivedData := none, cognitiveResult := none } (initMemory 100)).1
      = Settlement.pending ∧
     (processCycle (fun i => Except.ok (PerceivedData.str i))
        (fun _pd => Except.ok (CognitiveResult.mk "an" "pl"))
        (fun _cr => Except.error (α := ActionResult) "action blew up")
        "ep-w" 5 "go"
        { perceivedData := none, cognitiveResult := none } (initMemory 100)).2.2
      = initMemory 100) :=
  ⟨rfl, rfl, rfl,
    process_action_failure_never_settles _ _ _ "ep-w" 5 "go"
      { perceivedData := none, cognitiveResult := none } (initMemory 100)
      (PerceivedData.str "go") (CognitiveResult.mk "an" "pl") "action blew up" rfl rfl rfl⟩

/-- C2: under the interleaving in which cycle 1's perception lands while
cycle 0 awaits Cognition, the episode cycle 0 stores carries cycle 1's
perceived data — the shared fixed-key working memory cross-contaminates
concurrently invoked cycles. -/
theorem concurrent_cycles_cross_contaminate :
    contaminationDemo.stored0 =
      some { id := "ep0", timestamp := 1000, topics := none,
             perceivedData := some (PerceivedData.str "i2"),
             cognitiveResult := some { analysis := "a", plan := "p" },
             actionResult := some { success := true, output := "done" } } ∧
    PerceivedData.str "i2" ≠ PerceivedData.str "i1" := by
  constructor
  · decide
  · decide

end Cortex.Agent

namespace Cortex


/-! ### Keyword-frequency facts -/

theorem mapGet_eq_some_mem {K V : Type} [BEq K] [LawfulBEq K]
    {m : List (K × V)} {k : K} {v : V} (h : mapGet m k = some v) : (k, v) ∈ m := by
  induction m with
  | nil => simp [mapGet] at h
  | cons p rest ih =>
    obtain ⟨a, b⟩ := p
    by_cases hp : a = k
    · simp only [mapGet] at h
      rw [if_pos (by simp [hp])] at h
      simp only [Option.some.injEq] at h
      subst hp
      subst h
      exact List.mem_cons_self _ _
    · simp only [mapGet] at h
      rw [if_neg (by simp [hp])] at h
      exact List.mem_cons_of_mem _ (ih h)

theorem mapGet_eq_none_iff {K V : Type} [BEq K] [LawfulBEq K]
    (m : List (K × V)) (k : K) :
    mapGet m k = none ↔ k ∉ m.map Prod.fst := by
  induction m with
  | nil => simp [mapGet]
  | cons p rest ih =>
    by_cases hp : p.1 = k
    · simp [mapGet, hp]
    · simp [mapGet, hp, ih, Ne.symm hp]

theorem bumpCount_good {processed : List String} {m : List (String × Nat)} (u : String)
    (h1 : (m.map Prod.fst).Nodup)
    (h2 : ∀ kv ∈ m, kv.2 = processed.count kv.1)
    (h3 : ∀ w, w ∈ m.map Prod.fst ↔ w ∈ processed) :
    ((bumpCount m u).map Prod.fst).Nodup ∧
    (∀ kv ∈ bumpCount m u, kv.2 = (processed ++ [u]).count kv.1) ∧
    (∀ w, w ∈ (bumpCount m u).map Prod.fst ↔ w ∈ processed ++ [u]) := by
  cases hc : mapGet m u with
  | some n =>
    have hmem : (u, n) ∈ m := mapGet_eq_some_mem hc
    have hcount : n = processed.count u := h2 (u, n) hmem
    have hset : bumpCount m u = m.map (fun kv => if kv.1 == u then (u, n + 1) else kv) := by
      unfold bumpCount mapSet
      rw [hc]
      simp
    have hkeys : (bumpCount m u).map Prod.fst = m.map Prod.fst := by
      rw [hset, List.map_map]
      apply List.map_congr_left
      intro kv _
      by_cases hk : kv.1 = u <;> simp [hk]
    refine ⟨?_, ?_, ?_⟩
    · rw [hkeys]; exact h1
    · intro kv hkv
      rw [hset, List.mem_map] at hkv
      obtain ⟨kv0, hkv0, hrepl⟩ := hkv
      by_cases hk : kv0.1 = u
      · rw [if_pos (by simp [hk])] at hrepl
        subst hrepl
        simp [List.count_append, ← hcount]
      · rw [if_neg (by simp [hk])] at hrepl
        subst hrepl
        rw [h2 kv0 hkv0, List.count_append]
        simp [hk]
    · intro w
      rw [hkeys, h3, List.mem_append]
      constructor
      · exact Or.inl
      · rintro (h | h)
        · exact h
        · simp only [List.mem_singleton] at h
          subst h
          rw [← h3]
          exact List.mem_map_of_mem Prod.fst hmem
  | none =>
    have hnk : u ∉ m.map Prod.fst := (mapGet_eq_none_iff m u).mp hc
    have hnp : u ∉ processed := fun h => hnk ((h3 u).mpr h)
    have hset : bumpCount m u = m ++ [(u, 1)] := by
      unfold bumpCount mapSet
      rw [hc]
      simp
    refine ⟨?_, ?_, ?_⟩
    · rw [hset]
      simp [List.nodup_append, h1, hnk]
    · intro kv hkv
      rw [hset] at hkv
      rcases List.mem_append.mp hkv with h | h
      · have hne : kv.1 ≠ u := fun he => hnk (he ▸ List.mem_map_of_mem Prod.fst h)
        rw [h2 kv h, List.count_append]
        simp [hne]
      · simp only [List.mem_singleton] at h
        subst h
        simp [List.count_append, List.count_eq_zero.mpr hnp]
    · intro w
      rw [hset]
      simp only [List.map_append, List.mem_append, h3]
      simp

theorem foldl_bumpCount_good (ws : List String) :
    ∀ (processed : List String) (m : List (String × Nat)),
      (m.map Prod.fst).Nodup →
      (∀ kv ∈ m, kv.2 = processed.count kv.1) →
      (∀ w, w ∈ m.map Prod.fst ↔ w ∈ processed) →
      (((ws.foldl bumpCount m).map Prod.fst).Nodup ∧
       (∀ kv ∈ ws.foldl bumpCount m, kv.2 = (processed ++ ws).count kv.1) ∧
       (∀ w, w ∈ (ws.foldl bumpCount m).map Prod.fst ↔ w ∈ processed ++ ws)) := by
  induction ws with
  | nil =>
    intro processed m h1 h2 h3
    refine ⟨h1, ?_, ?_⟩
    · simpa using h2
    · simpa using h3
  | cons u rest ih =>
    intro processed m h1 h2 h3
    obtain ⟨g1, g2, g3⟩ := bumpCount_good u h1 h2 h3
    have := ih (processed ++ [u]) (bumpCount m u) g1 g2 g3
    simpa [List.append_assoc] using this

theorem keywordFrequency_spec (ws : List String) :
    ((keywordFrequency ws).map Prod.fst).Nodup ∧
    (∀ kv ∈ keywordFrequency ws, kv.2 = ws.count kv.1) ∧
    (∀ w, w ∈ (keywordFrequency ws).map Prod.fst ↔ w ∈ ws) := by
  have := foldl_bumpCount_good ws [] [] (by simp) (by simp) (by simp)
  simpa [keywordFrequency] using this

/-! ### `extractKeywordsFromText` facts -/

theorem extractKeywordsFromText_length (text : String) :
    (extractKeywordsFromText text).length ≤ 5 := by
  rw [extractKeywordsFromText, List.length_map, List.length_take]
  omega

theorem extractKeywordsFromText_nodup (text : String) :
    (extractKeywordsFromText text).Nodup := by
  rw [extractKeywordsFromText]
  have hsorted : ((sortDescBy (fun kv => (kv.2 : Int))
      (keywordFrequency (keywordsOf text))).map Prod.fst).Nodup := by
    have hperm := (sortDescBy_perm (fun kv => ((kv.2 : Nat) : Int))
      (keywordFrequency (keywordsOf text))).map Prod.fst
    exact hperm.nodup_iff.mpr (keywordFrequency_spec (keywordsOf text)).1
  exact List.Nodup.sublist ((List.take_sublist 5 _).map Prod.fst) hsorted

theorem mem_keywordsOf (text : String) (w : String) :
    w ∈ keywordsOf text ↔
      w ∈ jsSplitNonWord (jsToLower text) ∧ 4 < w.length ∧ ¬ stopwords.contains w := by
  rw [keywordsOf, List.mem_filter]
  simp [and_assoc]

theorem extractKeywordsFromText_mem {text w : String}
    (h : w ∈ extractKeywordsFromText text) : w ∈ keywordsOf text := by
  rw [extractKeywordsFromText, List.mem_map] at h
  obtain ⟨kv, hkv, rfl⟩ := h
  have h1 : kv ∈ sortDescBy (fun kv => (kv.2 : Int)) (keywordFrequency (keywordsOf text)) :=
    List.mem_of_mem_take hkv
  have h2 : kv ∈ keywordFrequency (keywordsOf text) :=
    (sortDescBy_perm _ _).mem_iff.mp h1
  exact ((keywordFrequency_spec (keywordsOf text)).2.2 kv.1).mp
    (List.mem_map_of_mem Prod.fst h2)

theorem extractKeywordsFromText_rank {text : String} {w u : String}
    (hw : w ∈ extractKeywordsFromText text) (hu : u ∈ keywordsOf text)
    (hnot : u ∉ extractKeywordsFromText text) :
    (keywordsOf text).count u ≤ (keywordsOf text).count w := by
  obtain ⟨spec1, spec2, spec3⟩ := keywordFrequency_spec (keywordsOf text)
  rw [extractKeywordsFromText, List.mem_map] at hw
  obtain ⟨kv, hkv, rfl⟩ := hw
  have hkvfreq : kv ∈ keywordFrequency (keywordsOf text) :=
    (sortDescBy_perm _ _).mem_iff.mp (List.mem_of_mem_take hkv)
  have hkvc : kv.2 = (keywordsOf text).count kv.1 := spec2 kv hkvfreq
  have huk : u ∈ (keywordFrequency (keywordsOf text)).map Prod.fst := (spec3 u).mpr hu
  rw [List.mem_map] at huk
  obtain ⟨kv', hkv', hfst⟩ := huk
  have hkvc' : kv'.2 = (keywordsOf text).count kv'.1 := spec2 kv' hkv'
  have hsortmem : kv' ∈ sortDescBy (fun kv => (kv.2 : Int)) (keywordFrequency (keywordsOf text)) :=
    (sortDescBy_perm _ _).mem_iff.mpr hkv'
  rw [← List.take_append_drop 5 (sortDescBy (fun kv => (kv.2 : Int))
    (keywordFrequency (keywordsOf text))), List.mem_append] at hsortmem
  subst hfst
  rcases hsortmem with hin | hout
  · exact absurd (by rw [extractKeywordsFromText]
                     exact List.mem_map_of_mem Prod.fst hin) hnot
  · have hrel := (sortDescBy_pairwise (fun kv => (kv.2 : Int))
      (keywordFrequency (keywordsOf text))).rel_of_mem_take_of_mem_drop hkv hout
    rw [← hkvc', ← hkvc]
    exact_mod_cast hrel

/-! ### `dedupFirst` and `_extractTopics` facts -/

theorem dedupFirst_go_nodup (l : List String) :
    ∀ acc : List String, acc.Nodup →
      (l.foldl (fun acc x => if acc.contains x then acc else acc ++ [x]) acc).Nodup := by
  induction l with
  | nil => intro acc h; exact h
  | cons x xs ih =>
    intro acc h
    by_cases hx : acc.contains x
    · rw [List.foldl_cons, if_pos hx]
      exact ih acc h
    · rw [List.foldl_cons, if_neg hx]
      refine ih (acc ++ [x]) ?_
      have hx' : x ∉ acc := by simpa using hx
      simp [List.nodup_append, h, hx']

theorem dedupFirst_go_mem (l : List String) :
    ∀ (acc : List String) (y : String),
      (y ∈ l.foldl (fun acc x => if acc.contains x then acc else acc ++ [x]) acc ↔
        y ∈ acc ∨ y ∈ l) := by
  induction l with
  | nil => intro acc y; simp
  | cons x xs ih =>
    intro acc y
    by_cases hx : acc.contains x
    · rw [List.foldl_cons, if_pos hx, ih acc y]
      have hx' : x ∈ acc := by simpa using hx
      constructor
      · rintro (h | h)
        · exact Or.inl h
        · exact Or.inr (List.mem_cons_of_mem x h)
      · rintro (h | h)
        · exact Or.inl h
        · rcases List.mem_cons.mp h with rfl | h2
          · exact Or.inl hx'
          · exact Or.inr h2
    · rw [List.foldl_cons, if_neg hx, ih (acc ++ [x]) y]
      simp [List.mem_append, or_assoc]

theorem dedupFirst_nodup (l : List String) : (dedupFirst l).Nodup :=
  dedupFirst_go_nodup l [] (by simp)

theorem mem_dedupFirst (l : List String) (y : String) : y ∈ dedupFirst l ↔ y ∈ l := by
  rw [dedupFirst, dedupFirst_go_mem l [] y]
  simp

theorem dedupFirst_go_eq (l : List String) :
    ∀ acc : List String, (∀ x ∈ l, x ∉ acc) → l.Nodup →
      l.foldl (fun acc x => if acc.contains x then acc else acc ++ [x]) acc = acc ++ l := by
  induction l with
  | nil => intro acc _ _; simp
  | cons x xs ih =>
    intro acc hfr hnd
    have hx : ¬ acc.contains x = true := by
      simpa using hfr x (List.mem_cons_self x xs)
    rw [List.foldl_cons, if_neg hx, ih (acc ++ [x]) ?_ (List.Nodup.of_cons hnd)]
    · simp
    · intro y hy
      simp only [List.mem_append, List.mem_singleton]
      rintro (h | rfl)
      · exact hfr y (List.mem_cons_of_mem x hy) h
      · exact (List.nodup_cons.mp hnd).1 hy

theorem dedupFirst_eq_self {l : List String} (h : l.Nodup) : dedupFirst l = l := by
  rw [dedupFirst, dedupFirst_go_eq l [] (by simp) h]
  simp

theorem foldl_keywords_mem (f : String → List String) (texts : List String) :
    ∀ (acc : List String) (x : String),
      x ∈ texts.foldl (fun a t => a ++ f t) acc ↔ x ∈ acc ∨ ∃ t ∈ texts, x ∈ f t := by
  induction texts with
  | nil => intro acc x; simp
  | cons t ts ih =>
    intro acc x
    rw [List.foldl_cons, ih (acc ++ f t) x]
    simp only [List.mem_append, List.mem_cons]
    constructor
    · rintro ((h | h) | ⟨t2, ht2, hx⟩)
      · exact Or.inl h
      · exact Or.inr ⟨t, Or.inl rfl, h⟩
      · exact Or.inr ⟨t2, Or.inr ht2, hx⟩
    · rintro (h | ⟨t2, (rfl | ht2), hx⟩)
      · exact Or.inl (Or.inl h)
      · exact Or.inl (Or.inr hx)
      · exact Or.inr ⟨t2, ht2, hx⟩

theorem extractTopics_nodup (pd : PerceivedData) : (extractTopics pd).Nodup :=
  dedupFirst_nodup _

theorem mem_extractTopics (pd : PerceivedData) (t : String) :
    t ∈ extractTopics pd ↔ ∃ text ∈ textsOf pd, t ∈ extractKeywordsFromText text := by
  rw [extractTopics, mem_dedupFirst, foldl_keywords_mem]
  simp

theorem extractTopics_str (s : String) :
    extractTopics (PerceivedData.str s) = extractKeywordsFromText s := by
  rw [extractTopics]
  show dedupFirst ([] ++ extractKeywordsFromText s) = extractKeywordsFromText s
  rw [List.nil_append]
  exact dedupFirst_eq_self (extractKeywordsFromText_nodup s)


/-! ### Topic-bucket updates -/

theorem bucketOf_pushTopics (ep : Episode) (ts : List String) :
    ∀ (idx : List (String × List Episode)) (t : String),
      bucketOf (ts.foldl (fun idx t => mapSet idx t (bucketOf idx t ++ [ep])) idx) t =
        bucketOf idx t ++ List.replicate (ts.count t) ep := by
  induction ts with
  | nil => intro idx t; simp
  | cons t0 ts ih =>
    intro idx t
    rw [List.foldl_cons, ih]
    by_cases ht : t = t0
    · subst ht
      rw [show bucketOf (mapSet idx t (bucketOf idx t ++ [ep])) t = bucketOf idx t ++ [ep] by
        rw [bucketOf, mapGet_mapSet]
        simp [bucketOf]]
      rw [List.count_cons_self, List.append_assoc, List.replicate_succ,
        List.singleton_append]
    · rw [show bucketOf (mapSet idx t0 (bucketOf idx t0 ++ [ep])) t = bucketOf idx t by
        rw [bucketOf, mapGet_mapSet, if_neg (by simpa using ht)]
        rfl]
      rw [List.count_cons_of_ne (by simpa using ht)]

/-- Under `topics = none`, truthy perceived data and a non-empty
extraction, the stored episode carries exactly the extracted topics. -/
theorem finalizeTopics_extracts {e : Episode} {pd : PerceivedData}
    (htop : e.topics = none) (hpd : e.perceivedData = some pd)
    (htr : pdTruthy pd = true) (hne : extractTopics pd ≠ []) :
    finalizeTopics e = { e with topics := some (extractTopics pd) } := by
  simp [finalizeTopics, htop, hpd, htr, List.isEmpty_iff, hne]

/-- When the append stays within the capacity bound, `storeEpisode` is
exactly the append plus the index update (no eviction). -/
theorem storeEpisode_no_evict (st : MemoryState) (e : Episode)
    (h : ((st.episodicMemory.length + 1 : Int) ≤ st.maxEpisodicMemory)) :
    storeEpisode st e =
      updateEpisodicIndexes (finalizeTopics e)
        { st with episodicMemory := st.episodicMemory ++ [finalizeTopics e] } := by
  simp only [storeEpisode]
  rw [if_neg]
  simp only [updateEpisodicIndexes_episodicMemory, updateEpisodicIndexes_maxEpisodicMemory,
    List.length_append, List.length_cons, List.length_nil]
  push_cast
  omega


/-- C8 counterexample: perceived data with two textual perceptions, each
contributing five distinct keywords, makes `storeEpisode` derive and
index 10 topics — more than the claimed bound of 5. -/
theorem storeEpisode_topics_more_than_five_counterexample :
    ((storeEpisode (initMemory 100)
        { id := "e1", timestamp := 0, topics := none,
          perceivedData := some (PerceivedData.obj (some
            [{ ptype := "text", value := some "apple banana cherry grapes melon" },
             { ptype := "text", value := some "tiger zebra horse otter eagle" }])),
          cognitiveResult := none, actionResult := none }).episodicMemory.map
      (fun ep => (ep.topics.getD []).length)) = [10] ∧ ¬ ((10 : Nat) ≤ 5) := by
  constructor
  · decide
  · decide


end Cortex

namespace Cortex

/-! ### Basic facts about the invariant ingredients -/

theorem optList_getD {α : Type} (l : List α) : (optList l).getD [] = l := by
  rw [optList]
  split
  · simp_all [List.isEmpty_iff]
  · rfl

theorem optList_eq_some {α : Type} {l b : List α} (h : optList l = some b) :
    l = b ∧ b ≠ [] := by
  rw [optList] at h
  split at h
  · simp at h
  · simp only [Option.some.injEq] at h
    subst h
    simp_all [List.isEmpty_iff]

theorem finalizeTopics_id (e : Episode) : (finalizeTopics e).id = e.id := by
  rw [finalizeTopics]
  split
  · rfl
  · split
    · rfl
    · split
      · dsimp only
        split <;> rfl
      · rfl

theorem finalizeTopics_timestamp (e : Episode) :
    (finalizeTopics e).timestamp = e.timestamp := by
  rw [finalizeTopics]
  split
  · rfl
  · split
    · rfl
    · split
      · dsimp only
        split <;> rfl
      · rfl

theorem mapSet_keys_nodup {K V : Type} [BEq K] [LawfulBEq K]
    {m : List (K × V)} (hn : (m.map Prod.fst).Nodup) (k : K) (v : V) :
    ((mapSet m k v).map Prod.fst).Nodup := by
  rw [mapSet]
  split
  case isTrue h =>
    have : (m.map (fun kv => if kv.1 == k then (k, v) else kv)).map Prod.fst
        = m.map Prod.fst := by
      rw [List.map_map]
      apply List.map_congr_left
      intro kv _
      by_cases hk : kv.1 = k <;> simp [hk]
    rw [this]
    exact hn
  case isFalse h =>
    have hk : k ∉ m.map Prod.fst := by
      rw [← mapGet_eq_none_iff m k]
      cases hg : mapGet m k with
      | none => rfl
      | some _ => rw [hg] at h; simp at h
    simp [List.nodup_append, hn, hk]

theorem mapDelete_keys_nodup {K V : Type} [BEq K] [LawfulBEq K]
    {m : List (K × V)} (hn : (m.map Prod.fst).Nodup) (k : K) :
    ((mapDelete m k).map Prod.fst).Nodup :=
  List.Nodup.sublist ((List.filter_sublist m).map Prod.fst) hn

theorem mapGet_of_mem_nodup {K V : Type} [BEq K] [LawfulBEq K]
    {m : List (K × V)} (hn : (m.map Prod.fst).Nodup) {k : K} {b : V}
    (h : (k, b) ∈ m) : mapGet m k = some b := by
  induction m with
  | nil => simp at h
  | cons p rest ih =>
    rcases List.mem_cons.mp h with rfl | h2
    · simp [mapGet]
    · have hne : p.1 ≠ k := by
        rintro rfl
        exact (List.nodup_cons.mp hn).1 (List.mem_map.mpr ⟨(p.1, b), h2, rfl⟩)
      rw [mapGet, if_neg (by simpa using hne)]
      exact ih (List.nodup_cons.mp hn).2 h2

theorem dateBucketSpec_append (l₁ l₂ : List Episode) (k : Int) :
    dateBucketSpec (l₁ ++ l₂) k = dateBucketSpec l₁ k ++ dateBucketSpec l₂ k := by
  simp [dateBucketSpec]

theorem dateBucketSpec_subset {mem : List Episode} {k : Int} {x : Episode}
    (h : x ∈ dateBucketSpec mem k) : x ∈ mem ∧ dayKey x.timestamp = k := by
  rw [dateBucketSpec, List.mem_filter] at h
  exact ⟨h.1, by simpa using h.2⟩

theorem topicBucketSpec_cons (ep : Episode) (rest : List Episode) (t : String) :
    topicBucketSpec (ep :: rest) t =
      List.replicate ((ep.topics.getD []).count t) ep ++ topicBucketSpec rest t := rfl

theorem topicBucketSpec_append (l₁ l₂ : List Episode) (t : String) :
    topicBucketSpec (l₁ ++ l₂) t = topicBucketSpec l₁ t ++ topicBucketSpec l₂ t := by
  induction l₁ with
  | nil => rfl
  | cons ep rest ih =>
    rw [List.cons_append, topicBucketSpec_cons, topicBucketSpec_cons, ih, List.append_assoc]

theorem topicBucketSpec_subset {mem : List Episode} {t : String} {x : Episode}
    (h : x ∈ topicBucketSpec mem t) : x ∈ mem ∧ t ∈ x.topics.getD [] := by
  induction mem with
  | nil => simp [topicBucketSpec] at h
  | cons ep rest ih =>
    rw [topicBucketSpec_cons, List.mem_append] at h
    rcases h with h | h
    · rw [List.mem_replicate] at h
      obtain ⟨hc, rfl⟩ := h
      refine ⟨List.mem_cons_self _ _, ?_⟩
      rw [← List.count_pos_iff]
      omega
    · obtain ⟨h1, h2⟩ := ih h
      exact ⟨List.mem_cons_of_mem _ h1, h2⟩


/-! ### The insert stage preserves the index equations -/

theorem mapGet_pushTopics (ep : Episode) (ts : List String) :
    ∀ (idx : List (String × List Episode)) (t : String),
      mapGet (ts.foldl (fun idx t => mapSet idx t (bucketOf idx t ++ [ep])) idx) t =
        (if ts.count t = 0 then mapGet idx t
         else some (bucketOf idx t ++ List.replicate (ts.count t) ep)) := by
  induction ts with
  | nil => intro idx t; simp
  | cons t0 ts ih =>
    intro idx t
    rw [List.foldl_cons, ih]
    by_cases ht : t = t0
    · subst ht
      have hget : mapGet (mapSet idx t (bucketOf idx t ++ [ep])) t
          = some (bucketOf idx t ++ [ep]) := by
        rw [mapGet_mapSet]
        simp
      have hbucket : bucketOf (mapSet idx t (bucketOf idx t ++ [ep])) t
          = bucketOf idx t ++ [ep] := by
        rw [bucketOf, hget]
        rfl
      rw [List.count_cons_self]
      by_cases hc : ts.count t = 0
      · rw [if_pos hc, if_neg (by omega), hget, hc]
        simp
      · rw [if_neg hc, if_neg (by omega), hbucket, List.append_assoc, List.singleton_append,
          ← List.replicate_succ]
    · have hget : mapGet (mapSet idx t0 (bucketOf idx t0 ++ [ep])) t = mapGet idx t := by
        rw [mapGet_mapSet, if_neg (by simpa using ht)]
      have hbucket : bucketOf (mapSet idx t0 (bucketOf idx t0 ++ [ep])) t = bucketOf idx t := by
        rw [bucketOf, hget]
        rfl
      rw [List.count_cons_of_ne (by simpa using ht), hget, hbucket]

theorem pushTopics_keys_nodup (ep : Episode) (ts : List String) :
    ∀ idx : List (String × List Episode), ((idx.map Prod.fst).Nodup) →
      (((ts.foldl (fun idx t => mapSet idx t (bucketOf idx t ++ [ep])) idx)).map Prod.fst).Nodup := by
  induction ts with
  | nil => intro idx h; exact h
  | cons t0 ts ih =>
    intro idx h
    rw [List.foldl_cons]
    exact ih _ (mapSet_keys_nodup h t0 _)

/-- After the append of a fresh finalized episode, `_updateEpisodicIndexes`
re-establishes both index equations for the extended log. -/
theorem updateEpisodicIndexes_inv (st : MemoryState) (ep : Episode)
    (hd : ∀ k : Int, mapGet st.episodicByDate k = optList (dateBucketSpec st.episodicMemory k))
    (ht : ∀ t : String, mapGet st.episodicByTopic t = optList (topicBucketSpec st.episodicMemory t))
    (hdk : (st.episodicByDate.map Prod.fst).Nodup)
    (htk : (st.episodicByTopic.map Prod.fst).Nodup) :
    (∀ k : Int,
      mapGet (updateEpisodicIndexes ep
        { st with episodicMemory := st.episodicMemory ++ [ep] }).episodicByDate k
        = optList (dateBucketSpec (st.episodicMemory ++ [ep]) k)) ∧
    (∀ t : String,
      mapGet (updateEpisodicIndexes ep
        { st with episodicMemory := st.episodicMemory ++ [ep] }).episodicByTopic t
        = optList (topicBucketSpec (st.episodicMemory ++ [ep]) t)) ∧
    ((updateEpisodicIndexes ep
        { st with episodicMemory := st.episodicMemory ++ [ep] }).episodicByDate.map Prod.fst).Nodup ∧
    ((updateEpisodicIndexes ep
        { st with episodicMemory := st.episodicMemory ++ [ep] }).episodicByTopic.map Prod.fst).Nodup := by
  have hDidx : (updateEpisodicIndexes ep
      { st with episodicMemory := st.episodicMemory ++ [ep] }).episodicByDate
      = mapSet st.episodicByDate (dayKey ep.timestamp)
          (bucketOf st.episodicByDate (dayKey ep.timestamp) ++ [ep]) := rfl
  have hTidx : (updateEpisodicIndexes ep
      { st with episodicMemory := st.episodicMemory ++ [ep] }).episodicByTopic
      = (ep.topics.getD []).foldl
          (fun idx t => mapSet idx t (bucketOf idx t ++ [ep])) st.episodicByTopic := rfl
  refine ⟨?_, ?_, ?_, ?_⟩
  · intro k
    rw [hDidx, mapGet_mapSet, dateBucketSpec_append]
    by_cases hk : k = dayKey ep.timestamp
    · rw [if_pos (by simp [hk]), hk]
      have hsingle : dateBucketSpec [ep] (dayKey ep.timestamp) = [ep] := by
        simp [dateBucketSpec]
      rw [hsingle, bucketOf, hd (dayKey ep.timestamp), optList_getD, optList,
        if_neg (by simp)]
    · rw [if_neg (by simpa using hk)]
      have hsingle : dateBucketSpec [ep] k = [] := by
        simp [dateBucketSpec, Ne.symm hk]
      rw [hsingle, List.append_nil, hd k]
  · intro t
    rw [hTidx, mapGet_pushTopics, topicBucketSpec_append]
    have hsingle : topicBucketSpec [ep] t = List.replicate ((ep.topics.getD []).count t) ep := by
      rw [topicBucketSpec_cons]
      simp [topicBucketSpec]
    rw [hsingle]
    by_cases hc : (ep.topics.getD []).count t = 0
    · rw [if_pos hc, hc, ht t]
      simp
    · rw [if_neg hc, bucketOf, ht t, optList_getD, optList]
      rw [if_neg (by
        simp [List.isEmpty_iff, List.append_eq_nil, List.replicate_eq_nil_iff]
        omega)]
  · rw [hDidx]
    exact mapSet_keys_nodup hdk _ _
  · rw [hTidx]
    exact pushTopics_keys_nodup ep _ _ htk

theorem cleanVal_idem (rid : String) (o : Option (List Episode)) :
    cleanVal rid (cleanVal rid o) = cleanVal rid o := by
  cases o with
  | none => rfl
  | some b =>
    by_cases h : (b.filter (fun e => !(e.id == rid))).isEmpty
    · have h1 : cleanVal rid (some b) = none := by simp [cleanVal, h]
      rw [h1]
      rfl
    · have h1 : cleanVal rid (some b) = some (b.filter (fun e => !(e.id == rid))) := by
        simp [cleanVal, h]
      rw [h1]
      have h2 : (b.filter (fun e => !(e.id == rid))).filter (fun e => !(e.id == rid))
          = b.filter (fun e => !(e.id == rid)) := by
        rw [List.filter_filter]
        simp [Bool.and_self]
      simp [cleanVal, h2, h]

theorem mapGet_cleanStep (rid : String) (idx : List (String × List Episode))
    (t0 t : String) :
    mapGet ((fun idx t => match mapGet idx t with
      | none => idx
      | some b =>
        let b' := b.filter (fun e => !(e.id == rid))
        if b'.isEmpty then mapDelete idx t else mapSet idx t b') idx t0) t =
      if t == t0 then cleanVal rid (mapGet idx t0) else mapGet idx t := by
  dsimp only
  cases hg : mapGet idx t0 with
  | none =>
    by_cases ht : t = t0
    · rw [if_pos (by simpa using ht), ht, hg]
      rfl
    · rw [if_neg (by simpa using ht)]
  | some b =>
    dsimp only
    by_cases h : (b.filter (fun e => !(e.id == rid))).isEmpty
    · rw [if_pos h, mapGet_mapDelete]
      have hcv : cleanVal rid (some b) = none := by simp [cleanVal, h]
      rw [hcv]
    · rw [if_neg h, mapGet_mapSet]
      have hcv : cleanVal rid (some b) = some (b.filter (fun e => !(e.id == rid))) := by
        simp [cleanVal, h]
      rw [hcv]


theorem mapGet_cleanTopics (rid : String) (ts : List String) :
    ∀ (idx : List (String × List Episode)) (t : String),
      mapGet (ts.foldl (fun idx t => match mapGet idx t with
        | none => idx
        | some b =>
          let b' := b.filter (fun e => !(e.id == rid))
          if b'.isEmpty then mapDelete idx t else mapSet idx t b') idx) t =
        if t ∈ ts then cleanVal rid (mapGet idx t) else mapGet idx t := by
  induction ts with
  | nil => intro idx t; simp
  | cons t0 ts ih =>
    intro idx t
    rw [List.foldl_cons, ih, mapGet_cleanStep]
    by_cases hmem : t ∈ ts
    · rw [if_pos hmem, if_pos (List.mem_cons_of_mem t0 hmem)]
      by_cases ht : t = t0
      · rw [if_pos (by simpa using ht), ht, cleanVal_idem]
      · rw [if_neg (by simpa using ht)]
    · rw [if_neg hmem]
      by_cases ht : t = t0
      · rw [if_pos (by simpa using ht), if_pos (by simp [ht]), ht]
      · rw [if_neg (by simpa using ht), if_neg (by simp [ht, hmem])]

theorem cleanTopics_keys_nodup (rid : String) (ts : List String) :
    ∀ idx : List (String × List Episode), (idx.map Prod.fst).Nodup →
      ((ts.foldl (fun idx t => match mapGet idx t with
        | none => idx
        | some b =>
          let b' := b.filter (fun e => !(e.id == rid))
          if b'.isEmpty then mapDelete idx t else mapSet idx t b') idx).map Prod.fst).Nodup := by
  induction ts with
  | nil => intro idx h; exact h
  | cons t0 ts ih =>
    intro idx h
    rw [List.foldl_cons]
    refine ih _ ?_
    cases hg : mapGet idx t0 with
    | none => exact h
    | some b =>
      dsimp only
      by_cases hb : (b.filter (fun e => !(e.id == rid))).isEmpty
      · rw [if_pos hb]
        exact mapDelete_keys_nodup h t0
      · rw [if_neg hb]
        exact mapSet_keys_nodup h t0 _


theorem filter_id_ne {l : List Episode} {rid : String} (h : ∀ x ∈ l, x.id ≠ rid) :
    l.filter (fun e => !(e.id == rid)) = l := by
  rw [List.filter_eq_self]
  intro a ha
  simpa using h a ha

theorem filter_replicate_false {α : Type} {p : α → Bool} {a : α} (h : p a = false) (n : Nat) :
    (List.replicate n a).filter p = [] := by
  induction n with
  | zero => rfl
  | succ n ih => rw [List.replicate_succ, List.filter_cons, h]; simpa using ih

/-- Evicting the head of the log restores both index equations for the
tail. -/
theorem removeFromEpisodicIndexes_inv (st : MemoryState) (removed : Episode)
    (rest : List Episode)
    (hids : ((removed :: rest).map Episode.id).Nodup)
    (hd : ∀ k : Int, mapGet st.episodicByDate k = optList (dateBucketSpec (removed :: rest) k))
    (ht : ∀ t : String,
      mapGet st.episodicByTopic t = optList (topicBucketSpec (removed :: rest) t))
    (hdk : (st.episodicByDate.map Prod.fst).Nodup)
    (htk : (st.episodicByTopic.map Prod.fst).Nodup) :
    (∀ k : Int, mapGet (removeFromEpisodicIndexes removed st).episodicByDate k
      = optList (dateBucketSpec rest k)) ∧
    (∀ t : String, mapGet (removeFromEpisodicIndexes removed st).episodicByTopic t
      = optList (topicBucketSpec rest t)) ∧
    ((removeFromEpisodicIndexes removed st).episodicByDate.map Prod.fst).Nodup ∧
    ((removeFromEpisodicIndexes removed st).episodicByTopic.map Prod.fst).Nodup := by
  have hRid : ∀ x ∈ rest, x.id ≠ removed.id := by
    have h : (∀ x ∈ rest, ¬ x.id = removed.id) ∧ (rest.map Episode.id).Nodup := by
      simpa using hids
    exact fun x hx => h.1 x hx
  have hdcons : dateBucketSpec (removed :: rest) (dayKey removed.timestamp)
      = removed :: dateBucketSpec rest (dayKey removed.timestamp) := by
    rw [dateBucketSpec, List.filter_cons]
    simp [dateBucketSpec]
  have hdcons_ne : ∀ k : Int, k ≠ dayKey removed.timestamp →
      dateBucketSpec (removed :: rest) k = dateBucketSpec rest k := by
    intro k hk
    rw [dateBucketSpec, List.filter_cons]
    simp [dateBucketSpec, Ne.symm hk]
  have hscrut : mapGet st.episodicByDate (dayKey removed.timestamp)
      = some (removed :: dateBucketSpec rest (dayKey removed.timestamp)) := by
    rw [hd, hdcons, optList, if_neg (by simp)]
  have hfilter : (removed :: dateBucketSpec rest (dayKey removed.timestamp)).filter
      (fun e => !(e.id == removed.id)) = dateBucketSpec rest (dayKey removed.timestamp) := by
    rw [List.filter_cons]
    simp only [beq_self_eq_true, Bool.not_true, Bool.false_eq_true, if_false]
    exact filter_id_ne (fun x hx => hRid x (dateBucketSpec_subset hx).1)
  have hDproj : (removeFromEpisodicIndexes removed st).episodicByDate
      = (match mapGet st.episodicByDate (dayKey removed.timestamp) with
         | none => st.episodicByDate
         | some b =>
           let b' := b.filter (fun e => !(e.id == removed.id))
           if b'.isEmpty then mapDelete st.episodicByDate (dayKey removed.timestamp)
           else mapSet st.episodicByDate (dayKey removed.timestamp) b') := rfl
  have hTproj : (removeFromEpisodicIndexes removed st).episodicByTopic
      = ((removed.topics.getD []).foldl (fun idx t => match mapGet idx t with
          | none => idx
          | some b =>
            let b' := b.filter (fun e => !(e.id == removed.id))
            if b'.isEmpty then mapDelete idx t else mapSet idx t b') st.episodicByTopic) := rfl
  have hDidx : (removeFromEpisodicIndexes removed st).episodicByDate
      = (if (dateBucketSpec rest (dayKey removed.timestamp)).isEmpty
         then mapDelete st.episodicByDate (dayKey removed.timestamp)
         else mapSet st.episodicByDate (dayKey removed.timestamp)
           (dateBucketSpec rest (dayKey removed.timestamp))) := by
    rw [hDproj, hscrut]
    dsimp only
    rw [hfilter]
  refine ⟨?_, ?_, ?_, ?_⟩
  · intro k
    rw [hDidx]
    by_cases hk : k = dayKey removed.timestamp
    · by_cases hempty : (dateBucketSpec rest (dayKey removed.timestamp)).isEmpty
      · rw [if_pos hempty, mapGet_mapDelete, if_pos (by simpa using hk), hk, optList,
          if_pos hempty]
      · rw [if_neg hempty, mapGet_mapSet, if_pos (by simpa using hk), hk, optList,
          if_neg hempty]
    · by_cases hempty : (dateBucketSpec rest (dayKey removed.timestamp)).isEmpty
      · rw [if_pos hempty, mapGet_mapDelete, if_neg (by simpa using hk), hd,
          hdcons_ne k hk]
      · rw [if_neg hempty, mapGet_mapSet, if_neg (by simpa using hk), hd,
          hdcons_ne k hk]
  · intro t
    rw [hTproj, mapGet_cleanTopics]
    by_cases hmem : t ∈ removed.topics.getD []
    · rw [if_pos hmem, ht, topicBucketSpec_cons]
      have hc : (removed.topics.getD []).count t ≠ 0 := by
        rw [Ne, List.count_eq_zero]
        exact fun hcon => hcon hmem
      have hne : ¬ (List.replicate ((removed.topics.getD []).count t) removed
          ++ topicBucketSpec rest t).isEmpty = true := by
        simp [List.isEmpty_iff, List.append_eq_nil, List.replicate_eq_nil_iff]
        omega
      rw [optList, if_neg hne, cleanVal]
      rw [List.filter_append, filter_replicate_false (by simp) _,
        filter_id_ne (fun x hx => hRid x (topicBucketSpec_subset hx).1), List.nil_append,
        optList]
    · rw [if_neg hmem, ht, topicBucketSpec_cons, List.count_eq_zero.mpr hmem]
      simp
  · rw [hDidx]
    by_cases hempty : (dateBucketSpec rest (dayKey removed.timestamp)).isEmpty
    · rw [if_pos hempty]
      exact mapDelete_keys_nodup hdk _
    · rw [if_neg hempty]
      exact mapSet_keys_nodup hdk _ _
  · rw [hTproj]
    exact cleanTopics_keys_nodup removed.id _ _ htk


/-- Filtering an id different from `x.id` out of an optional bucket does
not change whether `x` is in it (the emptied bucket is deleted, but then
`x` was not in it to begin with). -/
theorem mem_getD_cleanVal (rid : String) (x : Episode) (hx : x.id ≠ rid)
    (o : Option (List Episode)) :
    x ∈ (cleanVal rid o).getD [] ↔ x ∈ o.getD [] := by
  cases o with
  | none => exact Iff.rfl
  | some b =>
    by_cases h : (b.filter (fun e => !(e.id == rid))).isEmpty
    · have h1 : cleanVal rid (some b) = none := by simp [cleanVal, h]
      rw [h1]
      simp only [Option.getD_none, Option.getD_some, List.not_mem_nil, false_iff]
      intro hxb
      have hxf : x ∈ b.filter (fun e => !(e.id == rid)) :=
        List.mem_filter.mpr ⟨hxb, by simp [hx]⟩
      rw [List.isEmpty_iff] at h
      rw [h] at hxf
      exact List.not_mem_nil x hxf
    · have h1 : cleanVal rid (some b) = some (b.filter (fun e => !(e.id == rid))) := by
        simp [cleanVal, h]
      rw [h1]
      simp only [Option.getD_some, List.mem_filter]
      constructor
      · exact fun hh => hh.1
      · exact fun hh => ⟨hh, by simp [hx]⟩

/-- `_removeFromEpisodicIndexes` for an evicted episode whose id differs
from `x.id` does not change whether `x` is in a topic bucket. -/
theorem mem_bucketOf_removeFrom (removed : Episode) (st : MemoryState) (x : Episode)
    (hx : x.id ≠ removed.id) (t : String) :
    x ∈ bucketOf (removeFromEpisodicIndexes removed st).episodicByTopic t ↔
      x ∈ bucketOf st.episodicByTopic t := by
  have hTproj : (removeFromEpisodicIndexes removed st).episodicByTopic
      = ((removed.topics.getD []).foldl (fun idx t => match mapGet idx t with
          | none => idx
          | some b =>
            let b' := b.filter (fun e => !(e.id == removed.id))
            if b'.isEmpty then mapDelete idx t else mapSet idx t b') st.episodicByTopic) := rfl
  rw [hTproj]
  simp only [bucketOf]
  rw [mapGet_cleanTopics]
  by_cases hmem : t ∈ removed.topics.getD []
  · rw [if_pos hmem]
    exact mem_getD_cleanVal removed.id x hx _
  · rw [if_neg hmem]

/-- Updating a `MemoryState`'s log leaves the topic index unchanged. -/
theorem withMem_episodicByTopic (m : MemoryState) (l : List Episode) :
    ({ m with episodicMemory := l } : MemoryState).episodicByTopic = m.episodicByTopic := rfl

/-- C8 (amended): for an episode stored without a supplied `topics` field,
with truthy perceived data and a non-empty extraction, under the spec's
data-model invariants (the new episode's id is not already in the log,
and the capacity bound is positive), `storeEpisode` derives at most 5
frequency-ranked keywords per textual content item (excluding stopwords
and words of length at most 4, drawn from the split words of the
lowercased text), deduplicates them across texts, stores exactly them on
the episode, and indexes the episode under exactly the derived topics —
also when the store is at capacity and the insertion evicts the oldest
episode. -/
theorem storeEpisode_topic_derivation (st : MemoryState) (e : Episode) (pd : PerceivedData)
    (htop : e.topics = none) (hpd : e.perceivedData = some pd)
    (htr : pdTruthy pd = true) (hne : extractTopics pd ≠ [])
    (hfresh : e.id ∉ st.episodicMemory.map Episode.id)
    (hpos : 0 < st.maxEpisodicMemory) :
    TopicDerivationSpec st e pd := by
  have hfin : (finalizeTopics e).topics = some (extractTopics pd) := by
    rw [finalizeTopics_extracts htop hpd htr hne]
  have hmemIff : ∀ t : String,
      finalizeTopics e ∈ bucketOf (updateEpisodicIndexes (finalizeTopics e)
        { st with episodicMemory := st.episodicMemory ++ [finalizeTopics e] }).episodicByTopic t
        ↔ (t ∈ extractTopics pd ∨ finalizeTopics e ∈ bucketOf st.episodicByTopic t) := by
    intro t
    have hupd : (updateEpisodicIndexes (finalizeTopics e)
        { st with episodicMemory := st.episodicMemory ++ [finalizeTopics e] }).episodicByTopic =
        (((finalizeTopics e).topics.getD []).foldl
          (fun idx t => mapSet idx t (bucketOf idx t ++ [finalizeTopics e]))
          st.episodicByTopic) := rfl
    rw [hupd, hfin, Option.getD_some, bucketOf_pushTopics]
    have hcnt : ((extractTopics pd).count t ≠ 0 ↔ t ∈ extractTopics pd) := by
      rw [Ne, List.count_eq_zero]
      exact not_not
    rw [List.mem_append, List.mem_replicate]
    constructor
    · rintro (h | ⟨hc, _⟩)
      · exact Or.inr h
      · exact Or.inl (hcnt.mp hc)
    · rintro (h | h)
      · exact Or.inr ⟨hcnt.mpr h, rfl⟩
      · exact Or.inl h
  refine ⟨hfin, extractTopics_nodup pd, ?_, extractKeywordsFromText_length, extractTopics_str,
    ?_, ?_, ?_⟩
  · intro t ht
    exact (mem_extractTopics pd t).mp ht
  · intro text w hw
    exact (mem_keywordsOf text w).mp (extractKeywordsFromText_mem hw)
  · intro text w u hw hu hnu
    exact extractKeywordsFromText_rank hw hu hnu
  · intro t
    simp only [storeEpisode]
    split
    · rename_i hgt
      split
      case _ heq => exact hmemIff t
      case _ removed rest' heq =>
        rw [updateEpisodicIndexes_episodicMemory] at heq
        simp only [updateEpisodicIndexes_episodicMemory,
          updateEpisodicIndexes_maxEpisodicMemory] at hgt
        cases hsm : st.episodicMemory with
        | nil =>
          exfalso
          rw [hsm] at hgt
          simp only [List.nil_append, List.length_cons, List.length_nil] at hgt
          omega
        | cons h0 tl =>
          rw [hsm, List.cons_append] at heq
          injection heq with hh hrest
          have hne0 : (finalizeTopics e).id ≠ removed.id := by
            rw [finalizeTopics_id, ← hh]
            intro hcon
            apply hfresh
            rw [hsm, List.map_cons, hcon]
            exact List.mem_cons_self _ _
          rw [mem_bucketOf_removeFrom removed _ (finalizeTopics e) hne0 t,
            withMem_episodicByTopic]
          exact hmemIff t
    · exact hmemIff t

/-- Witness for C8's amended contract, exercising the eviction path: the
store is at its capacity of 1, so this insertion evicts the resident
episode and the contract still holds. -/
theorem storeEpisode_topic_derivation_witness :
    ({ id := "e1", timestamp := 0, topics := none,
       perceivedData := some (PerceivedData.str "apple banana apple"),
       cognitiveResult := none, actionResult := none } : Episode).topics = none ∧
    ({ id := "e1", timestamp := 0, topics := none,
       perceivedData := some (PerceivedData.str "apple banana apple"),
       cognitiveResult := none, actionResult := none } : Episode).perceivedData
      = some (PerceivedData.str "apple banana apple") ∧
    pdTruthy (PerceivedData.str "apple banana apple") = true ∧
    extractTopics (PerceivedData.str "apple banana apple") ≠ [] ∧
    ("e1" ∉ (storeEpisode (initMemory 1) (wEp "e0" 0)).episodicMemory.map Episode.id) ∧
    (0 < (storeEpisode (initMemory 1) (wEp "e0" 0)).maxEpisodicMemory) ∧
    TopicDerivationSpec (storeEpisode (initMemory 1) (wEp "e0" 0))
      { id := "e1", timestamp := 0, topics := none,
        perceivedData := some (PerceivedData.str "apple banana apple"),
        cognitiveResult := none, actionResult := none }
      (PerceivedData.str "apple banana apple") :=
  ⟨rfl, rfl, by decide, by decide, by decide, by decide,
    storeEpisode_topic_derivation (storeEpisode (initMemory 1) (wEp "e0" 0))
      { id := "e1", timestamp := 0, topics := none,
        perceivedData := some (PerceivedData.str "apple banana apple"),
        cognitiveResult := none, actionResult := none }
      (PerceivedData.str "apple banana apple") rfl rfl (by decide) (by decide)
      (by decide) (by decide)⟩

/-- `storeEpisode` preserves the store invariant for a fresh episode id. -/
theorem storeEpisode_inv (st : MemoryState) (e : Episode)
    (hInv : StoreInv st) (hfresh : e.id ∉ st.episodicMemory.map Episode.id) :
    StoreInv (storeEpisode st e) := by
  obtain ⟨hids, hdk, htk, hd, ht⟩ := hInv
  have hidsA : ((st.episodicMemory ++ [finalizeTopics e]).map Episode.id).Nodup := by
    rw [List.map_append]
    simp [List.nodup_append, hids, finalizeTopics_id, hfresh]
  obtain ⟨hdA, htA, hdkA, htkA⟩ := updateEpisodicIndexes_inv st (finalizeTopics e) hd ht hdk htk
  have hInvA : StoreInv (updateEpisodicIndexes (finalizeTopics e)
      { st with episodicMemory := st.episodicMemory ++ [finalizeTopics e] }) := by
    refine ⟨?_, hdkA, htkA, ?_, ?_⟩
    · rw [updateEpisodicIndexes_episodicMemory]
      exact hidsA
    · intro k
      rw [updateEpisodicIndexes_episodicMemory]
      exact hdA k
    · intro t
      rw [updateEpisodicIndexes_episodicMemory]
      exact htA t
  simp only [storeEpisode]
  split
  · split
    case _ heq => exact hInvA
    case _ removed rest' heq =>
      rw [updateEpisodicIndexes_episodicMemory] at heq
      have hidsC : ((removed :: rest').map Episode.id).Nodup := by
        rw [← heq]
        exact hidsA
      refine ⟨?_, ?_, ?_, ?_, ?_⟩
      · rw [removeFromEpisodicIndexes_episodicMemory]
        show (rest'.map Episode.id).Nodup
        have h2 : (removed.id ∉ rest'.map Episode.id) ∧ (rest'.map Episode.id).Nodup := by
          simpa using hidsC
        exact h2.2
      · exact (removeFromEpisodicIndexes_inv _ removed rest' hidsC
          (fun k => by rw [← heq]; exact hdA k)
          (fun t => by rw [← heq]; exact htA t) hdkA htkA).2.2.1
      · exact (removeFromEpisodicIndexes_inv _ removed rest' hidsC
          (fun k => by rw [← heq]; exact hdA k)
          (fun t => by rw [← heq]; exact htA t) hdkA htkA).2.2.2
      · intro k
        rw [removeFromEpisodicIndexes_episodicMemory]
        show mapGet _ k = optList (dateBucketSpec rest' k)
        exact (removeFromEpisodicIndexes_inv _ removed rest' hidsC
          (fun k => by rw [← heq]; exact hdA k)
          (fun t => by rw [← heq]; exact htA t) hdkA htkA).1 k
      · intro t
        rw [removeFromEpisodicIndexes_episodicMemory]
        show mapGet _ t = optList (topicBucketSpec rest' t)
        exact (removeFromEpisodicIndexes_inv _ removed rest' hidsC
          (fun k => by rw [← heq]; exact hdA k)
          (fun t => by rw [← heq]; exact htA t) hdkA htkA).2.1 t
  · exact hInvA

/-- `_initializeIndexes` establishes the invariant on the empty store. -/
theorem initMemory_inv (maxE : Int) : StoreInv (initMemory maxE) := by
  refine ⟨by simp [initMemory], by simp [initMemory], by simp [initMemory], ?_, ?_⟩
  · intro k
    simp [initMemory, mapGet, dateBucketSpec, optList]
  · intro t
    simp [initMemory, mapGet, topicBucketSpec, optList]

/-- Folding fresh-id insertions preserves the store invariant. -/
theorem foldl_storeEpisode_inv (l : List Episode) :
    ∀ st : MemoryState, StoreInv st →
      ((st.episodicMemory.map Episode.id) ++ l.map Episode.id).Nodup →
      StoreInv (l.foldl storeEpisode st) := by
  induction l with
  | nil => intro st h _; exact h
  | cons e rest ih =>
    intro st hInv hnd
    rw [List.map_cons] at hnd
    rw [List.nodup_append] at hnd
    obtain ⟨h1, h2, h3⟩ := hnd
    have hfresh : e.id ∉ st.episodicMemory.map Episode.id := by
      intro hmem
      exact h3 hmem (List.mem_cons_self _ _)
    have hnext : (((storeEpisode st e).episodicMemory.map Episode.id) ++
        rest.map Episode.id).Nodup := by
      have hsub : (storeEpisode st e).episodicMemory.Sublist
          (st.episodicMemory ++ [finalizeTopics e]) := by
        rw [(storeEpisode_episodicMemory st e).2]
        split
        · exact List.tail_sublist _
        · exact List.Sublist.refl _
      have hsub2 : (((storeEpisode st e).episodicMemory.map Episode.id) ++
          rest.map Episode.id).Sublist
          (((st.episodicMemory ++ [finalizeTopics e]).map Episode.id) ++
            rest.map Episode.id) :=
        List.Sublist.append_right (hsub.map Episode.id) _
      refine List.Nodup.sublist hsub2 ?_
      rw [List.map_append, List.append_assoc]
      rw [List.nodup_append]
      refine ⟨h1, ?_, ?_⟩
      · simp only [List.map_cons, List.map_nil, List.singleton_append, finalizeTopics_id]
        exact h2
      · intro a ha
        simp only [List.map_cons, List.singleton_append, finalizeTopics_id]
        intro hb
        rcases List.mem_cons.mp hb with rfl | hb2
        · exact h3 ha (List.mem_cons_self _ _)
        · exact h3 ha (List.mem_cons_of_mem _ hb2)
    exact ih (storeEpisode st e) (storeEpisode_inv st e hInv hfresh) hnext

/-- Full FIFO characterization of the log across a fold of insertions:
the log is the last `cap` finalized insertions (preceded by whatever of
the initial log still fits). -/
theorem foldl_storeEpisode_mem (cap : Nat) (hcap : 0 < cap) (l : List Episode) :
    ∀ st : MemoryState, st.maxEpisodicMemory = (cap : Int) →
      st.episodicMemory.length ≤ cap →
      ((l.foldl storeEpisode st).episodicMemory
        = (st.episodicMemory ++ l.map finalizeTopics).drop
            (st.episodicMemory.length + l.length - cap) ∧
       (l.foldl storeEpisode st).episodicMemory.length
        = min (st.episodicMemory.length + l.length) cap ∧
       (l.foldl storeEpisode st).maxEpisodicMemory = (cap : Int)) := by
  induction l with
  | nil =>
    intro st hmax hlen
    refine ⟨?_, ?_, hmax⟩
    · simp only [List.foldl_nil, List.map_nil, List.append_nil, List.length_nil, Nat.add_zero]
      rw [Nat.sub_eq_zero_of_le hlen, List.drop_zero]
    · simp
      omega
  | cons e rest ih =>
    intro st hmax hlen
    rw [List.foldl_cons]
    obtain ⟨hm, hmem⟩ := storeEpisode_episodicMemory st e
    by_cases hover : st.episodicMemory.length + 1 ≤ cap
    · have hcond : ¬ (((st.episodicMemory ++ [finalizeTopics e]).length : Int) >
          st.maxEpisodicMemory) := by
        rw [hmax]
        simp only [List.length_append, List.length_cons, List.length_nil]
        push_cast
        omega
      rw [if_neg hcond] at hmem
      have hlen1 : (storeEpisode st e).episodicMemory.length ≤ cap := by
        rw [hmem]
        simp only [List.length_append, List.length_cons, List.length_nil]
        omega
      obtain ⟨r1, r2, r3⟩ := ih (storeEpisode st e) (hm.trans hmax) hlen1
      refine ⟨?_, ?_, r3⟩
      · rw [r1, hmem]
        simp only [List.length_append, List.length_cons, List.length_nil, List.map_cons]
        rw [List.append_assoc, List.singleton_append]
        congr 1
        omega
      · rw [r2, hmem]
        simp only [List.length_append, List.length_cons, List.length_nil]
        omega
    · have hlen_eq : st.episodicMemory.length = cap := by omega
      have hcond : (((st.episodicMemory ++ [finalizeTopics e]).length : Int) >
          st.maxEpisodicMemory) := by
        rw [hmax]
        simp only [List.length_append, List.length_cons, List.length_nil]
        push_cast
        omega
      rw [if_pos hcond] at hmem
      have hlen' : (storeEpisode st e).episodicMemory.length = cap := by
        rw [hmem, List.length_tail]
        simp only [List.length_append, List.length_cons, List.length_nil]
        omega
      obtain ⟨r1, r2, r3⟩ := ih (storeEpisode st e) (hm.trans hmax) (by omega)
      refine ⟨?_, ?_, r3⟩
      · rw [r1, hmem]
        have htl : (st.episodicMemory ++ [finalizeTopics e]).tail.length = cap := by
          rw [List.length_tail]
          simp only [List.length_append, List.length_cons, List.length_nil]
          omega
        rw [htl, ← List.drop_one]
        have hge : 1 ≤ (st.episodicMemory ++ [finalizeTopics e]).length := by
          simp
        rw [← List.drop_append_of_le_length hge, List.drop_drop]
        rw [List.map_cons]
        rw [show (st.episodicMemory ++ [finalizeTopics e]) ++ rest.map finalizeTopics
            = st.episodicMemory ++ finalizeTopics e :: rest.map finalizeTopics by
          rw [List.append_assoc, List.singleton_append]]
        congr 1
        simp only [List.length_cons]
        omega
      · rw [r2, hlen']
        simp only [List.length_cons]
        omega

/-- The invariant, read back as the reachability property of C3: an
episode is reachable from the indexes exactly when it is in the log, and
no bucket of either index is empty. -/
theorem StoreInv.reach {st : MemoryState} (h : StoreInv st) :
    (∀ ep : Episode,
      ((∃ kb ∈ st.episodicByDate, ep ∈ kb.2) ∨ (∃ tb ∈ st.episodicByTopic, ep ∈ tb.2))
        ↔ ep ∈ st.episodicMemory) ∧
    (∀ kb ∈ st.episodicByDate, kb.2 ≠ []) ∧
    (∀ tb ∈ st.episodicByTopic, tb.2 ≠ []) := by
  have hdateb : ∀ kb ∈ st.episodicByDate, kb.2 = dateBucketSpec st.episodicMemory kb.1 ∧
      kb.2 ≠ [] := by
    intro kb hkb
    have hg : mapGet st.episodicByDate kb.1 = some kb.2 := by
      obtain ⟨k, b⟩ := kb
      exact mapGet_of_mem_nodup h.dateKeys hkb
    rw [h.dateEq kb.1] at hg
    obtain ⟨h1, h2⟩ := optList_eq_some hg
    exact ⟨h1.symm, h2⟩
  have htopicb : ∀ tb ∈ st.episodicByTopic, tb.2 = topicBucketSpec st.episodicMemory tb.1 ∧
      tb.2 ≠ [] := by
    intro tb htb
    have hg : mapGet st.episodicByTopic tb.1 = some tb.2 := by
      obtain ⟨t, b⟩ := tb
      exact mapGet_of_mem_nodup h.topicKeys htb
    rw [h.topicEq tb.1] at hg
    obtain ⟨h1, h2⟩ := optList_eq_some hg
    exact ⟨h1.symm, h2⟩
  refine ⟨?_, fun kb hkb => (hdateb kb hkb).2, fun tb htb => (htopicb tb htb).2⟩
  intro ep
  constructor
  · rintro (⟨kb, hkb, hmem⟩ | ⟨tb, htb, hmem⟩)
    · rw [(hdateb kb hkb).1] at hmem
      exact (dateBucketSpec_subset hmem).1
    · rw [(htopicb tb htb).1] at hmem
      exact (topicBucketSpec_subset hmem).1
  · intro hmem
    left
    have hself : ep ∈ dateBucketSpec st.episodicMemory (dayKey ep.timestamp) := by
      rw [dateBucketSpec, List.mem_filter]
      exact ⟨hmem, by simp⟩
    have hne : dateBucketSpec st.episodicMemory (dayKey ep.timestamp) ≠ [] := by
      intro hcon
      rw [hcon] at hself
      simp at hself
    have hg : mapGet st.episodicByDate (dayKey ep.timestamp)
        = some (dateBucketSpec st.episodicMemory (dayKey ep.timestamp)) := by
      rw [h.dateEq, optList, if_neg (by simpa [List.isEmpty_iff] using hne)]
    exact ⟨(dayKey ep.timestamp, dateBucketSpec st.episodicMemory (dayKey ep.timestamp)),
      mapGet_eq_some_mem hg, hself⟩

/-- C3: after `N > capacity` insertions with pairwise-distinct ids into
the freshly initialized store (the spec's Episode data model declares
identifiers unique), the log holds exactly the last `capacity` finalized
episodes, each evicted episode is absent from `getEpisode` and from
every bucket of both indexes, and after every individual `storeEpisode`
call (each insert with its possible eviction) the episodes reachable
from the indexes are exactly the log and no bucket is empty. -/
theorem storeEpisode_capacity_fifo_invariant
    (cap : Nat) (l : List Episode)
    (hcap : 0 < cap) (hids : (l.map Episode.id).Nodup) (hover : cap < l.length) :
    CapacityFifoSpec cap l := by
  obtain ⟨r1, r2, _⟩ := foldl_storeEpisode_mem cap hcap l (initMemory cap) rfl
    (by simp [initMemory])
  have hmem : (l.foldl storeEpisode (initMemory cap)).episodicMemory
      = (l.map finalizeTopics).drop (l.length - cap) := by
    rw [r1]
    simp [initMemory]
  have hlength : (l.foldl storeEpisode (initMemory cap)).episodicMemory.length = cap := by
    rw [r2]
    simp only [initMemory, List.length_nil, Nat.zero_add]
    omega
  have hidsfin : (l.foldl storeEpisode (initMemory cap)).episodicMemory.map Episode.id
      = (l.map Episode.id).drop (l.length - cap) := by
    rw [hmem, ← List.map_drop, ← List.map_drop, List.map_map]
    apply List.map_congr_left
    intro e _
    exact finalizeTopics_id e
  have hInv : StoreInv (l.foldl storeEpisode (initMemory cap)) :=
    foldl_storeEpisode_inv l (initMemory cap) (initMemory_inv _) (by simpa [initMemory] using hids)
  have hreach := hInv.reach
  have hdropids : ∀ e ∈ l.take (l.length - cap),
      ∀ x ∈ (l.foldl storeEpisode (initMemory cap)).episodicMemory, x.id ≠ e.id := by
    intro e he x hx
    have hxid : x.id ∈ (l.map Episode.id).drop (l.length - cap) := by
      rw [← hidsfin]
      exact List.mem_map.mpr ⟨x, hx, rfl⟩
    have heid : e.id ∈ (l.map Episode.id).take (l.length - cap) := by
      rw [← List.map_take]
      exact List.mem_map.mpr ⟨e, he, rfl⟩
    have hsplit : ((l.map Episode.id).take (l.length - cap) ++
        (l.map Episode.id).drop (l.length - cap)).Nodup := by
      rw [List.take_append_drop]
      exact hids
    rw [List.nodup_append] at hsplit
    intro hcon
    exact hsplit.2.2 heid (hcon ▸ hxid)
  refine ⟨hlength, hmem, ?_, ?_⟩
  · intro e he
    refine ⟨?_, ?_, ?_⟩
    · rw [getEpisode, List.find?_eq_none]
      intro x hx
      simpa using hdropids e he x hx
    · intro kb hkb x hx
      have hxmem : x ∈ (l.foldl storeEpisode (initMemory cap)).episodicMemory :=
        (hreach.1 x).mp (Or.inl ⟨kb, hkb, hx⟩)
      exact hdropids e he x hxmem
    · intro tb htb x hx
      have hxmem : x ∈ (l.foldl storeEpisode (initMemory cap)).episodicMemory :=
        (hreach.1 x).mp (Or.inr ⟨tb, htb, hx⟩)
      exact hdropids e he x hxmem
  · intro n hn
    have hInvN : StoreInv ((l.take n).foldl storeEpisode (initMemory cap)) := by
      refine foldl_storeEpisode_inv (l.take n) (initMemory cap) (initMemory_inv _) ?_
      have : ((l.take n).map Episode.id).Nodup := by
        rw [List.map_take]
        exact List.Nodup.sublist (List.take_sublist n _) hids
      simpa [initMemory] using this
    exact hInvN.reach

/-- Witness for C3: capacity 2, three distinct-id episodes (the spec's §8
scenario). -/
theorem storeEpisode_capacity_fifo_invariant_witness :
    (0 < 2) ∧
    (([{ id := "a", timestamp := 1, topics := none, perceivedData := none,
         cognitiveResult := none, actionResult := none },
       { id := "b", timestamp := 2, topics := none, perceivedData := none,
         cognitiveResult := none, actionResult := none },
       { id := "c", timestamp := 3, topics := none, perceivedData := none,
         cognitiveResult := none, actionResult := none }] : List Episode).map Episode.id).Nodup ∧
    (2 < ([{ id := "a", timestamp := 1, topics := none, perceivedData := none,
             cognitiveResult := none, actionResult := none },
           { id := "b", timestamp := 2, topics := none, perceivedData := none,
             cognitiveResult := none, actionResult := none },
           { id := "c", timestamp := 3, topics := none, perceivedData := none,
             cognitiveResult := none, actionResult := none }] : List Episode).length) ∧
    CapacityFifoSpec 2
      [{ id := "a", timestamp := 1, topics := none, perceivedData := none,
         cognitiveResult := none, actionResult := none },
       { id := "b", timestamp := 2, topics := none, perceivedData := none,
         cognitiveResult := none, actionResult := none },
       { id := "c", timestamp := 3, topics := none, perceivedData := none,
         cognitiveResult := none, actionResult := none }] :=
  ⟨by decide, by decide, by decide,
    storeEpisode_capacity_fifo_invariant 2
      [{ id := "a", timestamp := 1, topics := none, perceivedData := none,
         cognitiveResult := none, actionResult := none },
       { id := "b", timestamp := 2, topics := none, perceivedData := none,
         cognitiveResult := none, actionResult := none },
       { id := "c", timestamp := 3, topics := none, perceivedData := none,
         cognitiveResult := none, actionResult := none }]
      (by decide) (by decide) (by decide)⟩

end Cortex

namespace Cortex

/-! ### C4: the date-range query -/

theorem mem_foldl_append {α β : Type} (f : β → List α) (l : List β) :
    ∀ (acc : List α) (x : α),
      x ∈ l.foldl (fun a b => a ++ f b) acc ↔ x ∈ acc ∨ ∃ b ∈ l, x ∈ f b := by
  induction l with
  | nil => intro acc x; simp
  | cons b bs ih =>
    intro acc x
    rw [List.foldl_cons, ih (acc ++ f b) x]
    simp only [List.mem_append, List.mem_cons]
    constructor
    · rintro ((h | h) | ⟨b2, hb2, hx⟩)
      · exact Or.inl h
      · exact Or.inr ⟨b, Or.inl rfl, h⟩
      · exact Or.inr ⟨b2, Or.inr hb2, hx⟩
    · rintro (h | ⟨b2, (rfl | hb2), hx⟩)
      · exact Or.inl (Or.inl h)
      · exact Or.inl (Or.inr hx)
      · exact Or.inr ⟨b2, hb2, hx⟩

theorem foldl_append_eq_flatten {α β : Type} (f : β → List α) (l : List β) :
    ∀ acc : List α, l.foldl (fun a b => a ++ f b) acc = acc ++ (l.map f).flatten := by
  induction l with
  | nil => intro acc; simp
  | cons b bs ih =>
    intro acc
    rw [List.foldl_cons, ih (acc ++ f b), List.map_cons, List.flatten_cons, List.append_assoc]

/-- Every entry of the day index of an invariant-satisfying store holds
exactly its specified bucket. -/
theorem StoreInv.dateEntry {st : MemoryState} (h : StoreInv st)
    {kb : Int × List Episode} (hkb : kb ∈ st.episodicByDate) :
    kb.2 = dateBucketSpec st.episodicMemory kb.1 ∧ kb.2 ≠ [] := by
  have hg : mapGet st.episodicByDate kb.1 = some kb.2 := by
    obtain ⟨k, b⟩ := kb
    exact mapGet_of_mem_nodup h.dateKeys hkb
  rw [h.dateEq kb.1] at hg
  obtain ⟨h1, h2⟩ := optList_eq_some hg
  exact ⟨h1.symm, h2⟩

/-- C4 (amended), for any invariant-satisfying store: the date-range
query returns exactly the episodes whose DAY-START key (not their
timestamp) lies within the closed interval, ordered by descending
timestamp. -/
theorem getEpisodesByDate_of_inv {st : MemoryState} (h : StoreInv st) (startTs endTs : Int) :
    (getEpisodesByDate st startTs endTs).Perm
      (st.episodicMemory.filter
        (fun ep => decide (startTs ≤ dayKey ep.timestamp) &&
          decide (dayKey ep.timestamp ≤ endTs))) ∧
    (getEpisodesByDate st startTs endTs).Pairwise
      (fun a b => b.timestamp ≤ a.timestamp) := by
  have hmemN : st.episodicMemory.Nodup := List.Nodup.of_map Episode.id h.idsNodup
  constructor
  · refine (sortDescBy_perm _ _).trans ?_
    have hcolN : ((st.episodicByDate.filter
        (fun kv => decide (startTs ≤ kv.1) && decide (kv.1 ≤ endTs))).foldl
          (fun acc kv => acc ++ kv.2) []).Nodup := by
      rw [foldl_append_eq_flatten Prod.snd, List.nil_append]
      rw [List.nodup_flatten]
      constructor
      · intro bucket hbucket
        rw [List.mem_map] at hbucket
        obtain ⟨kb, hkb, rfl⟩ := hbucket
        rw [(h.dateEntry (List.mem_of_mem_filter hkb)).1]
        exact List.Nodup.filter _ hmemN
      · have hkeyPW : (st.episodicByDate.filter
            (fun kv => decide (startTs ≤ kv.1) && decide (kv.1 ≤ endTs))).Pairwise
            (fun a b => a.1 ≠ b.1) := by
          have h0 : st.episodicByDate.Pairwise (fun a b => a.1 ≠ b.1) :=
            (List.pairwise_map).mp h.dateKeys
          exact List.Pairwise.sublist (List.filter_sublist _) h0
        rw [List.pairwise_map]
        refine (List.Pairwise.and_mem.mp hkeyPW).imp ?_
        rintro a b ⟨ha, hb, hne⟩
        intro x hxa hxb
        have h1 := dateBucketSpec_subset ((h.dateEntry (List.mem_of_mem_filter ha)).1 ▸ hxa)
        have h2 := dateBucketSpec_subset ((h.dateEntry (List.mem_of_mem_filter hb)).1 ▸ hxb)
        exact hne (h1.2 ▸ h2.2 ▸ rfl)
    refine (List.perm_ext_iff_of_nodup hcolN (List.Nodup.filter _ hmemN)).mpr ?_
    intro x
    rw [mem_foldl_append Prod.snd, List.mem_filter]
    simp only [List.mem_nil_iff, false_or]
    constructor
    · rintro ⟨kb, hkb, hx⟩
      have hent := (h.dateEntry (List.mem_of_mem_filter hkb)).1
      have hsub := dateBucketSpec_subset (hent ▸ hx)
      have hrange : (decide (startTs ≤ kb.1) && decide (kb.1 ≤ endTs)) = true :=
        (List.mem_filter.mp hkb).2
      refine ⟨hsub.1, ?_⟩
      rw [← hsub.2] at hrange
      simpa using hrange
    · rintro ⟨hxmem, hrange⟩
      have hself : x ∈ dateBucketSpec st.episodicMemory (dayKey x.timestamp) := by
        rw [dateBucketSpec, List.mem_filter]
        exact ⟨hxmem, by simp⟩
      have hne : ¬ (dateBucketSpec st.episodicMemory (dayKey x.timestamp)).isEmpty = true := by
        simp only [List.isEmpty_iff]
        intro hcon
        rw [hcon] at hself
        simp at hself
      have hg : mapGet st.episodicByDate (dayKey x.timestamp)
          = some (dateBucketSpec st.episodicMemory (dayKey x.timestamp)) := by
        rw [h.dateEq, optList, if_neg hne]
      refine ⟨(dayKey x.timestamp, dateBucketSpec st.episodicMemory (dayKey x.timestamp)),
        ?_, hself⟩
      rw [List.mem_filter]
      exact ⟨mapGet_eq_some_mem hg, by simpa using hrange⟩
  · exact sortDescBy_pairwise _ _

/-- C4 (amended) on every reachable store: `getEpisodesByDate(start, end)`
returns exactly the stored episodes whose day key falls within
`[start, end]`, ordered by descending timestamp. -/
theorem getEpisodesByDate_day_granularity
    (cap : Int) (l : List Episode) (startTs endTs : Int)
    (hids : (l.map Episode.id).Nodup) :
    (getEpisodesByDate (l.foldl storeEpisode (initMemory cap)) startTs endTs).Perm
      ((l.foldl storeEpisode (initMemory cap)).episodicMemory.filter
        (fun ep => decide (startTs ≤ dayKey ep.timestamp) &&
          decide (dayKey ep.timestamp ≤ endTs))) ∧
    (getEpisodesByDate (l.foldl storeEpisode (initMemory cap)) startTs endTs).Pairwise
      (fun a b => b.timestamp ≤ a.timestamp) :=
  getEpisodesByDate_of_inv
    (foldl_storeEpisode_inv l (initMemory cap) (initMemory_inv cap)
      (by simpa [initMemory] using hids)) startTs endTs

/-- Witness for C4's amended theorem at a concrete two-episode store. -/
theorem getEpisodesByDate_day_granularity_witness :
    (([wEp "a" 50, wEp "b" 86400005].map Episode.id).Nodup) ∧
    ((getEpisodesByDate ([wEp "a" 50, wEp "b" 86400005].foldl storeEpisode
        (initMemory 100)) 0 0).Perm
      (([wEp "a" 50, wEp "b" 86400005].foldl storeEpisode
          (initMemory 100)).episodicMemory.filter
        (fun ep => decide ((0 : Int) ≤ dayKey ep.timestamp) &&
          decide (dayKey ep.timestamp ≤ (0 : Int)))) ∧
     (getEpisodesByDate ([wEp "a" 50, wEp "b" 86400005].foldl storeEpisode
        (initMemory 100)) 0 0).Pairwise (fun a b => b.timestamp ≤ a.timestamp)) :=
  ⟨by decide,
    getEpisodesByDate_day_granularity 100 [wEp "a" 50, wEp "b" 86400005] 0 0 (by decide)⟩

/-- C4 counterexample: an episode with timestamp 50 lies inside the
queried range [40, 60], but `getEpisodesByDate(40, 60)` misses it — the
source compares the range against the midnight DAY key (0), not the
episode's timestamp. -/
theorem getEpisodesByDate_timestamp_counterexample :
    ((40 : Int) ≤ 50 ∧ (50 : Int) ≤ 60) ∧
    ((storeEpisode (initMemory 100)
        { id := "e1", timestamp := 50, topics := none, perceivedData := none,
          cognitiveResult := none, actionResult := none }).episodicMemory.map
      Episode.timestamp = [50]) ∧
    getEpisodesByDate (storeEpisode (initMemory 100)
        { id := "e1", timestamp := 50, topics := none, perceivedData := none,
          cognitiveResult := none, actionResult := none }) 40 60 = [] := by
  refine ⟨by decide, by decide, by decide⟩

end Cortex
